import Mathlib

set_option maxHeartbeats 1000000

namespace Relay

/-!
A shallow embedding of the core of the `relay` repository: the session-key
derivation and session store (`src/session/store.ts`, `src/bot-handler.ts`),
the turn-completion accumulator (`src/codex/turn-state.ts`), the JSON-RPC
line codec (`src/codex/rpc.ts`), the subprocess transport state
(`src/codex/app-server-client.ts`) and the thread lifecycle
(`src/codex/thread.ts`).  JavaScript objects coming out of `JSON.parse` are
modelled by the `Json` inductive; `undefined` is modelled by `Option`.
-/

/-- JSON values as produced by `JSON.parse`.  Objects are association lists
with unique keys (as `JSON.parse` deduplicates keys); numbers are modelled
as integers (no claim depends on non-integral numeric values). -/
inductive Json where
  | null
  | bool (b : Bool)
  | num (n : Int)
  | str (s : String)
  | arr (items : List Json)
  | obj (fields : List (String × Json))

/-- First-match association-list lookup; models access to a field of a
JavaScript object with unique keys. -/
def alLookup {α : Type} (l : List (String × α)) (k : String) : Option α :=
  match l.find? (fun p => p.1 = k) with
  | some p => some p.2
  | none => none

/-- JavaScript member access `v.k` on a possibly-`undefined` value:
throws (`Except.error`) on `undefined` and `null`, yields the field for
objects and `undefined` for any other value. -/
def jsGet (v : Option Json) (k : String) : Except Unit (Option Json) :=
  match v with
  | none => .error ()
  | some .null => .error ()
  | some (.obj fields) => .ok (alLookup fields k)
  | some _ => .ok none

/-- JavaScript optional chaining `v?.k`: never throws; `undefined` on
`undefined`/`null` and on non-object values. -/
def jsGetOpt (v : Option Json) (k : String) : Option Json :=
  match v with
  | none => none
  | some .null => none
  | some (.obj fields) => alLookup fields k
  | some _ => none

/-- JavaScript truthiness of a JSON value. -/
def truthy : Json → Bool
  | .null => false
  | .bool b => b
  | .num n => n != 0
  | .str s => s != ""
  | .arr _ => true
  | .obj _ => true

/-- Truthiness of a possibly-`undefined` value (`undefined` is falsy). -/
def truthyO : Option Json → Bool
  | none => false
  | some j => truthy j

/-- `isRecord` from `src/codex/rpc.ts`: `typeof value === 'object' &&
value !== null`.  Note that arrays pass this check. -/
def isRecordO : Option Json → Bool
  | some (.obj _) => true
  | some (.arr _) => true
  | _ => false

/-! ## Basic data model (`src/types.ts`) -/

/-- `ChatMode` from `src/types.ts`. -/
inductive ChatMode where
  | default
  | plan
deriving DecidableEq, Repr

/-- `BotSession` from `src/types.ts` (the session-store variant, which also
carries an optional `title`). -/
structure BotSession where
  threadId : String
  model : String
  mode : ChatMode
  cwd : String
  title : Option String
deriving DecidableEq, Repr

/-- `SessionKeyInput` from `src/types.ts`; `chatType` is an arbitrary
string. -/
structure SessionKeyInput where
  chatType : String
  chatId : String
  userId : String
deriving DecidableEq, Repr

/-- `getSessionKey` from `src/session/store.ts` lines 6-12. -/
def getSessionKey (input : SessionKeyInput) : String :=
  if input.chatType = "p2p" then
    "p2p:" ++ input.chatId
  else
    "group:" ++ input.chatId ++ ":" ++ input.userId

/-! ## Turn accumulator (`src/codex/turn-state.ts`) -/

/-- `TurnAccumulator` from `src/types.ts`.  `turnError` holds a JSON value
because `turn/completed` assigns `params.turn?.error?.message` unchecked
(any truthy value); the `error` branch always stores a string. -/
structure TurnAccumulator where
  turnCompleted : Bool
  turnError : Option Json
  lastAgentMessageByItem : Option String
  lastAgentMessageByTask : Option String

/-- A notification as delivered to the accumulator: `method` plus `params`,
which may be absent (`undefined`). -/
structure RpcNotif where
  method : String
  params : Option Json

/-- `createTurnAccumulator` from `src/codex/turn-state.ts` lines 10-17. -/
def createTurnAccumulator : TurnAccumulator :=
  { turnCompleted := false
    turnError := none
    lastAgentMessageByItem := none
    lastAgentMessageByTask := none }

/-- `applyTurnNotification` from `src/codex/turn-state.ts` lines 19-64,
as a pure state transformer.  The returned `Bool` is `true` when the
handler throws a `TypeError` (member access on `undefined`/`null` params);
the accumulator component carries the mutations performed before the
throw, matching the imperative source. -/
def applyTurnNotification (acc : TurnAccumulator) (n : RpcNotif) :
    TurnAccumulator × Bool :=
  if n.method = "error" then
    -- isRecord(params) && typeof params.message === 'string'
    let msg : Json :=
      match n.params with
      | some (.obj fields) =>
          match alLookup fields "message" with
          | some (.str s) => .str s
          | _ => .str "Codex returned an unknown error event"
      | _ => .str "Codex returned an unknown error event"
    ({ acc with turnError := some msg, turnCompleted := true }, false)
  else if n.method = "item/completed" then
    match jsGet n.params "item" with
    | .error _ => (acc, true)
    | .ok item =>
        -- item?.type === 'agentMessage' && typeof item.text === 'string'
        match item with
        | some (.obj f) =>
            match alLookup f "type" with
            | some (.str ty) =>
                if ty = "agentMessage" then
                  match alLookup f "text" with
                  | some (.str t) =>
                      ({ acc with lastAgentMessageByItem := some t }, false)
                  | _ => (acc, false)
                else (acc, false)
            | _ => (acc, false)
        | _ => (acc, false)
  else if n.method = "codex/event/task_complete" then
    match jsGet n.params "msg" with
    | .error _ => (acc, true)
    | .ok msg =>
        match jsGetOpt msg "last_agent_message" with
        | some (.str m) =>
            ({ acc with lastAgentMessageByTask := some m }, false)
        | _ => (acc, false)
  else if n.method = "turn/completed" then
    -- turnCompleted is set before params.turn is dereferenced
    let acc1 := { acc with turnCompleted := true }
    match jsGet n.params "turn" with
    | .error _ => (acc1, true)
    | .ok turn =>
        let errMsg := jsGetOpt (jsGetOpt turn "error") "message"
        if truthyO errMsg then
          ({ acc1 with turnError := errMsg }, false)
        else
          match jsGetOpt turn "status" with
          | some (.str s) =>
              if s = "failed" then
                ({ acc1 with turnError := some (.str "Codex turn failed") },
                  false)
              else (acc1, false)
          | _ => (acc1, false)
  else (acc, false)

/-- `resolveTurnMessage` from `src/codex/turn-state.ts` lines 66-72:
`lastAgentMessageByTask ?? lastAgentMessageByItem`. -/
def resolveTurnMessage (acc : TurnAccumulator) : Option String :=
  match acc.lastAgentMessageByTask with
  | some m => some m
  | none => acc.lastAgentMessageByItem

/-- Folds a stream of notifications through `applyTurnNotification`,
stopping at the first thrown `TypeError` (an uncaught throw in the
notification handler aborts processing). -/
def foldTurn (acc : TurnAccumulator) : List RpcNotif → TurnAccumulator × Bool
  | [] => (acc, false)
  | n :: ns =>
      let r := applyTurnNotification acc n
      if r.2 then (r.1, true) else foldTurn r.1 ns

/-- The task-level message observed in one notification, if any: a
`codex/event/task_complete` notification whose `msg.last_agent_message`
is a string. -/
def taskMsgOf (n : RpcNotif) : Option String :=
  if n.method = "codex/event/task_complete" then
    match jsGet n.params "msg" with
    | .error _ => none
    | .ok msg =>
        match jsGetOpt msg "last_agent_message" with
        | some (.str m) => some m
        | _ => none
  else none

/-- The item-level message observed in one notification, if any: an
`item/completed` notification whose item has type `agentMessage` and a
string `text`. -/
def itemMsgOf (n : RpcNotif) : Option String :=
  if n.method = "item/completed" then
    match jsGet n.params "item" with
    | .error _ => none
    | .ok item =>
        match item with
        | some (.obj f) =>
            match alLookup f "type" with
            | some (.str ty) =>
                if ty = "agentMessage" then
                  match alLookup f "text" with
                  | some (.str t) => some t
                  | _ => none
                else none
            | _ => none
        | _ => none
  else none

/-- Last element of a list if nonempty, else a default. -/
def lastOr {α : Type} (l : List α) (d : Option α) : Option α :=
  match l.getLast? with
  | some x => some x
  | none => d

/-- A string with no colon character. -/
def colonFree (s : String) : Prop := (':' : Char) ∉ s.data

instance (s : String) : Decidable (colonFree s) := by
  unfold colonFree
  infer_instance

theorem lastOr_nil {α : Type} (d : Option α) : lastOr [] d = d := rfl

theorem lastOr_cons {α : Type} (x : α) (l : List α) (d : Option α) :
    lastOr (x :: l) d = lastOr l (some x) := by
  cases l with
  | nil => rfl
  | cons y t => simp [lastOr, List.getLast?_cons]

theorem append_assoc_str (a b c : String) :
    a ++ b ++ c = a ++ (b ++ c) := by
  apply String.ext
  simp [String.data_append]

/-- Splitting a character list at a separator absent from both prefixes is
injective. -/
theorem sep_split :
    ∀ (l1 l2 r1 r2 : List Char), (':' : Char) ∉ l1 → (':' : Char) ∉ l2 →
      l1 ++ ':' :: r1 = l2 ++ ':' :: r2 → l1 = l2 ∧ r1 = r2 := by
  intro l1
  induction l1 with
  | nil =>
      intro l2 r1 r2 _ h2 h
      cases l2 with
      | nil => simpa using h
      | cons c t =>
          simp only [List.nil_append, List.cons_append, List.cons.injEq] at h
          exact absurd (h.1 ▸ List.mem_cons_self c t) h2
  | cons c t ih =>
      intro l2 r1 r2 h1 h2 h
      cases l2 with
      | nil =>
          simp only [List.nil_append, List.cons_append, List.cons.injEq] at h
          exact absurd (h.1 ▸ List.mem_cons_self c t) h1
      | cons c2 t2 =>
          simp only [List.cons_append, List.cons.injEq] at h
          have h1' : (':' : Char) ∉ t := fun hm => h1 (List.mem_cons_of_mem _ hm)
          have h2' : (':' : Char) ∉ t2 := fun hm => h2 (List.mem_cons_of_mem _ hm)
          obtain ⟨he, ht⟩ := h
          obtain ⟨ha, hb⟩ := ih t2 r1 r2 h1' h2' ht
          exact ⟨by rw [he, ha], hb⟩

theorem p2p_key_inj (a b : String) :
    ("p2p:" ++ a = "p2p:" ++ b) ↔ a = b := by
  constructor
  · intro h
    have hd := congrArg String.data h
    simp only [String.data_append] at hd
    exact String.ext (List.append_cancel_left hd)
  · intro h; rw [h]

theorem p2p_key_ne_group_key (a c u : String) :
    "p2p:" ++ a ≠ "group:" ++ c ++ ":" ++ u := by
  intro h
  have hd := congrArg String.data h
  simp only [String.data_append] at hd
  simp at hd

theorem group_key_inj (c1 u1 c2 u2 : String)
    (h1 : colonFree c1) (h2 : colonFree c2) :
    ("group:" ++ c1 ++ ":" ++ u1 = "group:" ++ c2 ++ ":" ++ u2) ↔
      (c1 = c2 ∧ u1 = u2) := by
  constructor
  · intro h
    have hd := congrArg String.data h
    simp only [String.data_append] at hd
    simp only [List.append_assoc, List.cons_append, List.nil_append,
      List.cons.injEq, true_and] at hd
    have hsplit := sep_split c1.data c2.data u1.data u2.data h1 h2
      (by simpa using hd)
    exact ⟨String.ext hsplit.1, String.ext hsplit.2⟩
  · intro h; rw [h.1, h.2]

/-- C8 (counterexample): the claim "different chatType, or different chatId
implies different keys" fails on the code: every chatType other than
`"p2p"` is rendered as a `group:` key, so inputs with distinct chatTypes
`"group"`/`"topic"` collide; and a colon inside `chatId` lets inputs with
distinct chatIds collide. -/
theorem C8_cex :
    (SessionKeyInput.mk "group" "c" "u").chatType ≠
        (SessionKeyInput.mk "topic" "c" "u").chatType ∧
      getSessionKey (SessionKeyInput.mk "group" "c" "u") =
        getSessionKey (SessionKeyInput.mk "topic" "c" "u") ∧
      (SessionKeyInput.mk "group" "a:b" "c").chatId ≠
        (SessionKeyInput.mk "group" "a" "b:c").chatId ∧
      getSessionKey (SessionKeyInput.mk "group" "a:b" "c") =
        getSessionKey (SessionKeyInput.mk "group" "a" "b:c") := by
  refine ⟨by decide, by decide, by decide, by decide⟩

/-- C8 (amended): for inputs whose `chatId` contains no colon,
`getSessionKey` is deterministic (it is a function) and collision-free up
to the distinctions the key actually encodes: two inputs produce the same
key exactly when they agree on being `p2p` (any non-`"p2p"` chatType is
treated alike), agree on `chatId`, and — for non-p2p inputs — agree on
`userId`; in particular p2p inputs differing only in `userId` map to the
same key by design. -/
theorem C8_amended (i1 i2 : SessionKeyInput)
    (h1 : colonFree i1.chatId) (h2 : colonFree i2.chatId) :
    getSessionKey i1 = getSessionKey i2 ↔
      ((i1.chatType = "p2p" ∧ i2.chatType = "p2p" ∧ i1.chatId = i2.chatId) ∨
        (¬i1.chatType = "p2p" ∧ ¬i2.chatType = "p2p" ∧
          i1.chatId = i2.chatId ∧ i1.userId = i2.userId)) := by
  by_cases ha : i1.chatType = "p2p" <;> by_cases hb : i2.chatType = "p2p" <;>
    simp only [getSessionKey, ha, hb, if_true, if_false, if_pos, if_neg,
      not_false_iff, not_true]
  · simp [p2p_key_inj, ha, hb]
  · simp [p2p_key_ne_group_key, ha, hb]
  · have := p2p_key_ne_group_key i2.chatId i1.chatId i1.userId
    simp [ha, hb]
    exact fun h => this h.symm
  · simp [group_key_inj _ _ _ _ h1 h2, ha, hb]

/-- C8 amended witness: two non-p2p inputs with colon-free chatIds and
different userIds get different keys, while p2p inputs differing only in
userId share a key. -/
theorem C8_witness :
    colonFree (SessionKeyInput.mk "group" "c1" "u1").chatId ∧
      colonFree (SessionKeyInput.mk "group" "c1" "u2").chatId ∧
      getSessionKey (SessionKeyInput.mk "group" "c1" "u1") ≠
        getSessionKey (SessionKeyInput.mk "group" "c1" "u2") := by
  refine ⟨by decide, by decide, fun h => ?_⟩
  have := (C8_amended (SessionKeyInput.mk "group" "c1" "u1")
    (SessionKeyInput.mk "group" "c1" "u2") (by decide) (by decide)).mp h
  simp at this

/-- C9: the turn accumulator settles forward-only: once `turnCompleted` is
`true`, applying any further notification leaves it `true` (this holds on
every branch of `applyTurnNotification`, including the branches that throw
after partial mutation). -/
theorem C9_turnCompleted_monotone (acc : TurnAccumulator) (n : RpcNotif)
    (h : acc.turnCompleted = true) :
    (applyTurnNotification acc n).1.turnCompleted = true := by
  unfold applyTurnNotification
  repeat' split
  all_goals try exact h
  all_goals try rfl
  all_goals (dsimp only []; split <;> rfl)

/-- C9 witness: a settled accumulator stays settled across a concrete
further notification. -/
theorem C9_witness :
    (TurnAccumulator.mk true none none none).turnCompleted = true ∧
      (applyTurnNotification (TurnAccumulator.mk true none none none)
        (RpcNotif.mk "item/completed"
          (some (Json.obj [("item", Json.null)])))).1.turnCompleted = true :=
  ⟨rfl, C9_turnCompleted_monotone _ _ rfl⟩

theorem applyTurn_task_eq (acc : TurnAccumulator) (n : RpcNotif)
    (h : (applyTurnNotification acc n).2 = false) :
    (applyTurnNotification acc n).1.lastAgentMessageByTask =
      (taskMsgOf n).or acc.lastAgentMessageByTask := by
  unfold applyTurnNotification taskMsgOf at *
  repeat' split at h <;> repeat' split <;> simp_all

theorem applyTurn_item_eq (acc : TurnAccumulator) (n : RpcNotif)
    (h : (applyTurnNotification acc n).2 = false) :
    (applyTurnNotification acc n).1.lastAgentMessageByItem =
      (itemMsgOf n).or acc.lastAgentMessageByItem := by
  unfold applyTurnNotification itemMsgOf at *
  repeat' split at h <;> repeat' split <;> simp_all

theorem foldTurn_task (acc : TurnAccumulator) (ns : List RpcNotif)
    (h : (foldTurn acc ns).2 = false) :
    (foldTurn acc ns).1.lastAgentMessageByTask =
      lastOr (ns.filterMap taskMsgOf) acc.lastAgentMessageByTask := by
  induction ns generalizing acc with
  | nil => simp [foldTurn, lastOr]
  | cons n ns ih =>
      by_cases hthrew : (applyTurnNotification acc n).2 = true
      · exfalso
        simp [foldTurn, hthrew] at h
      · have hthrew' : (applyTurnNotification acc n).2 = false := by
          simpa using hthrew
        have hrest : (foldTurn (applyTurnNotification acc n).1 ns).2 = false := by
          simpa [foldTurn, hthrew'] using h
        have hfold : foldTurn acc (n :: ns) =
            foldTurn (applyTurnNotification acc n).1 ns := by
          simp [foldTurn, hthrew']
        rw [hfold, ih _ hrest, applyTurn_task_eq acc n hthrew']
        cases htm : taskMsgOf n with
        | none => simp [List.filterMap_cons, htm, Option.or]
        | some m => simp [List.filterMap_cons, htm, Option.or, lastOr_cons]

theorem foldTurn_item (acc : TurnAccumulator) (ns : List RpcNotif)
    (h : (foldTurn acc ns).2 = false) :
    (foldTurn acc ns).1.lastAgentMessageByItem =
      lastOr (ns.filterMap itemMsgOf) acc.lastAgentMessageByItem := by
  induction ns generalizing acc with
  | nil => simp [foldTurn, lastOr]
  | cons n ns ih =>
      by_cases hthrew : (applyTurnNotification acc n).2 = true
      · exfalso
        simp [foldTurn, hthrew] at h
      · have hthrew' : (applyTurnNotification acc n).2 = false := by
          simpa using hthrew
        have hrest : (foldTurn (applyTurnNotification acc n).1 ns).2 = false := by
          simpa [foldTurn, hthrew'] using h
        have hfold : foldTurn acc (n :: ns) =
            foldTurn (applyTurnNotification acc n).1 ns := by
          simp [foldTurn, hthrew']
        rw [hfold, ih _ hrest, applyTurn_item_eq acc n hthrew']
        cases htm : itemMsgOf n with
        | none => simp [List.filterMap_cons, htm, Option.or]
        | some m => simp [List.filterMap_cons, htm, Option.or, lastOr_cons]

/-- C2: folding any sequence of notifications (that the handler survives
without a thrown TypeError) yields an accumulator whose resolved message is
the last observed task-level message when one was observed, else the last
observed item-level message, else `none` — so a task-level message is
preferred regardless of observation order. -/
theorem C2_resolve_last_task_else_item (ns : List RpcNotif)
    (h : (foldTurn createTurnAccumulator ns).2 = false) :
    resolveTurnMessage (foldTurn createTurnAccumulator ns).1 =
      lastOr (ns.filterMap taskMsgOf)
        (lastOr (ns.filterMap itemMsgOf) none) := by
  have ht := foldTurn_task createTurnAccumulator ns h
  have hi := foldTurn_item createTurnAccumulator ns h
  unfold resolveTurnMessage
  rw [ht, hi]
  simp only [createTurnAccumulator]
  cases htask : (ns.filterMap taskMsgOf).getLast? with
  | some m => simp [lastOr, htask]
  | none => simp [lastOr, htask]

/-- A concrete notification stream: a task-level message, then a later
item-level message, then a settling `turn/completed`. -/
def c2demo : List RpcNotif :=
  [RpcNotif.mk "codex/event/task_complete"
      (some (Json.obj [("msg",
        Json.obj [("last_agent_message", Json.str "task-msg")])])),
    RpcNotif.mk "item/completed"
      (some (Json.obj [("item",
        Json.obj [("type", Json.str "agentMessage"),
          ("text", Json.str "item-msg")])])),
    RpcNotif.mk "turn/completed"
      (some (Json.obj [("turn",
        Json.obj [("status", Json.str "completed")])]))]

/-- C2 witness: with a task-level message observed before a later
item-level message, the resolved message is still the task-level one. -/
theorem C2_witness :
    (foldTurn createTurnAccumulator c2demo).2 = false ∧
      resolveTurnMessage (foldTurn createTurnAccumulator c2demo).1 =
        some "task-msg" := by
  have h : (foldTurn createTurnAccumulator c2demo).2 = false := rfl
  refine ⟨h, ?_⟩
  rw [C2_resolve_last_task_else_item c2demo h]
  rfl

/-! ## RPC line codec (`src/codex/rpc.ts`) -/

/-- `RpcRequestId` from `src/types.ts`: a JSON number or string. -/
inductive RpcRequestId where
  | num (n : Int)
  | str (s : String)
deriving DecidableEq, Repr

/-- `RpcErrorObject` from `src/types.ts`. -/
structure RpcErrorObject where
  code : Int
  message : String
deriving DecidableEq, Repr

/-- `isRecord` restricted to a present JSON value. -/
def isRecordJ : Json → Bool
  | .obj _ => true
  | .arr _ => true
  | _ => false

/-- Field access on a present JSON value; `none` both when the field is
absent and when the value is not an object (a JSON object never maps a
present key to `undefined`). -/
def fieldOf (j : Json) (k : String) : Option Json :=
  match j with
  | .obj fields => alLookup fields k
  | _ => none

/-- `typeof parsed.method === 'string'`. -/
def methodOf (j : Json) : Option String :=
  match fieldOf j "method" with
  | some (.str m) => some m
  | _ => none

/-- `isRpcRequestId(parsed.id)`. -/
def idOf (j : Json) : Option RpcRequestId :=
  match fieldOf j "id" with
  | some (.num n) => some (.num n)
  | some (.str s) => some (.str s)
  | _ => none

/-- `isRpcErrorObject`: a record with numeric `code` and string
`message`. -/
def errorObjOf (j : Json) : Option RpcErrorObject :=
  match fieldOf j "code", fieldOf j "message" with
  | some (.num c), some (.str m) => some (RpcErrorObject.mk c m)
  | _, _ => none

/-- `RpcIncomingLine` from `src/types.ts`: each constructor records
exactly the fields of the object literal `parseRpcLine` returns. -/
inductive RpcIncomingLine where
  | success (id : RpcRequestId) (result : Json)
  | errorResp (id : RpcRequestId) (error : RpcErrorObject)
  | notification (method : String) (params : Option Json)
  | serverRequest (id : RpcRequestId) (method : String) (params : Option Json)

/-- `parseRpcLine` from `src/codex/rpc.ts` lines 10-56.  The input models
the outcome of `JSON.parse(line)`: `none` when parsing threw (the catch
returns `null`), `some j` otherwise. -/
def parseRpcLine (parsed : Option Json) : Option RpcIncomingLine :=
  match parsed with
  | none => none
  | some p =>
      if isRecordJ p = false then none
      else
        match methodOf p with
        | some m =>
            match idOf p with
            | some i => some (.serverRequest i m (fieldOf p "params"))
            | none => some (.notification m (fieldOf p "params"))
        | none =>
            match idOf p with
            | none => none
            | some i =>
                -- 'error' in parsed && isRpcErrorObject(parsed.error)
                match (fieldOf p "error").bind errorObjOf with
                | some eo => some (.errorResp i eo)
                | none =>
                    -- 'result' in parsed
                    match fieldOf p "result" with
                    | some r => some (.success i r)
                    | none => none

/-- The returned object carries a `result` field. -/
def carriesResult : RpcIncomingLine → Bool
  | .success _ _ => true
  | _ => false

/-- The returned object carries an `error` field. -/
def carriesError : RpcIncomingLine → Bool
  | .errorResp _ _ => true
  | _ => false

/-- The four categories of `parseRpcLine` results (`isRpcSuccessResponse`,
`isRpcErrorResponse`, notification, `isRpcServerRequest`); counts how many
categories a value belongs to. -/
def categoryCount (out : RpcIncomingLine) : Nat :=
  (match out with | .success _ _ => 1 | _ => 0) +
    (match out with | .errorResp _ _ => 1 | _ => 0) +
    (match out with | .notification _ _ => 1 | _ => 0) +
    (match out with | .serverRequest _ _ _ => 1 | _ => 0)

/-- C5: `parseRpcLine` is total (a Lean function — the `JSON.parse` throw
is caught and modelled by the `none` input), yields `none` on malformed
input (a parse failure or a non-record value), classifies every accepted
line into exactly one of the four categories, and never returns a value
carrying both a `result` and an `error`. -/
theorem C5_parse_line_exclusive :
    parseRpcLine none = none ∧
      (∀ j : Json, isRecordJ j = false → parseRpcLine (some j) = none) ∧
      (∀ (p : Option Json) (out : RpcIncomingLine),
        parseRpcLine p = some out → categoryCount out = 1) ∧
      (∀ (p : Option Json) (out : RpcIncomingLine),
        parseRpcLine p = some out →
          ¬(carriesResult out = true ∧ carriesError out = true)) := by
  refine ⟨rfl, ?_, ?_, ?_⟩
  · intro j hj
    simp [parseRpcLine, hj]
  · intro p out _
    cases out <;> rfl
  · intro p out _
    cases out <;> simp [carriesResult, carriesError]

/-- C5 witness: a line carrying both a well-formed `error` and a `result`
is classified as an error response only (the error branch wins), with
exactly one category and never both fields. -/
theorem C5_witness :
    parseRpcLine (some (Json.obj
        [("id", Json.num 1), ("result", Json.str "r"),
          ("error", Json.obj
            [("code", Json.num 5), ("message", Json.str "m")])])) =
        some (RpcIncomingLine.errorResp (RpcRequestId.num 1)
          (RpcErrorObject.mk 5 "m")) ∧
      categoryCount (RpcIncomingLine.errorResp (RpcRequestId.num 1)
        (RpcErrorObject.mk 5 "m")) = 1 ∧
      ¬(carriesResult (RpcIncomingLine.errorResp (RpcRequestId.num 1)
          (RpcErrorObject.mk 5 "m")) = true ∧
        carriesError (RpcIncomingLine.errorResp (RpcRequestId.num 1)
          (RpcErrorObject.mk 5 "m")) = true) := by
  have hp : parseRpcLine (some (Json.obj
      [("id", Json.num 1), ("result", Json.str "r"),
        ("error", Json.obj
          [("code", Json.num 5), ("message", Json.str "m")])])) =
      some (RpcIncomingLine.errorResp (RpcRequestId.num 1)
        (RpcErrorObject.mk 5 "m")) := rfl
  exact ⟨hp, C5_parse_line_exclusive.2.2.1 _ _ hp,
    C5_parse_line_exclusive.2.2.2 _ _ hp⟩

/-! ## Process transport exit handling
(`src/codex/app-server-client.ts`) -/

/-- The observable state of one `CodexAppServerClient`: the next request
id (starts at 1), the ids of still-pending requests in insertion order,
the `exited` flag and the captured stderr lines. -/
structure ClientState where
  nextId : Nat
  pending : List Nat
  exited : Bool
  stderrBuffer : List String
deriving DecidableEq, Repr

/-- A fresh client (`nextId = 1`, nothing pending, not exited). -/
def initialClientState : ClientState :=
  ClientState.mk 1 [] false []

/-- `${code ?? 'null'}` for a nullable exit code. -/
def renderCode : Option Int → String
  | some n => toString n
  | none => "null"

/-- `${signal ?? 'null'}` for a nullable signal name. -/
def renderSignal : Option String → String
  | some s => s
  | none => "null"

/-- The fixed part of `buildExitMessage`. -/
def exitMessageCore (code : Option Int) (signal : Option String) : String :=
  "Codex app-server exited (code=" ++ renderCode code ++ ", signal=" ++
    renderSignal signal ++ ")"

/-- `buildExitMessage` from `src/codex/app-server-client.ts` lines
234-245: appends `; stderr: <last captured line>` when the stderr buffer
is nonempty (`stderrBuffer.at(-1)`). -/
def buildExitMessage (st : ClientState) (code : Option Int)
    (signal : Option String) : String :=
  exitMessageCore code signal ++
    (match st.stderrBuffer.getLast? with
      | some l => "; stderr: " ++ l
      | none => "")

/-- The `exit` handler from `src/codex/app-server-client.ts` lines 70-77:
sets `exited`, builds one error message, rejects every pending request
with that single error, and clears the pending table.  Returns the new
state, the message, and the list of (id, rejection message) pairs. -/
def handleExit (st : ClientState) (code : Option Int)
    (signal : Option String) : ClientState × String × List (Nat × String) :=
  let st1 : ClientState := { st with exited := true }
  let msg := buildExitMessage st1 code signal
  ({ st1 with pending := [] }, msg, st.pending.map (fun i => (i, msg)))

/-- Outcome of a `request()` call: `rejected` models the synchronous throw
before anything is written to the child; `sent` carries the new state and
the id written in the request line (the only observable effects the claims
inspect). -/
inductive RequestOutcome where
  | rejected (message : String)
  | sent (st : ClientState) (id : Nat)
deriving DecidableEq, Repr

/-- `request` from `src/codex/app-server-client.ts` lines 86-120, up to
the write acknowledgement: throws `buildExitMessage(null, null)` when the
process has already exited (before allocating an id or writing), else
allocates the next id, registers it as pending, and writes one line. -/
def request (st : ClientState) : RequestOutcome :=
  if st.exited then .rejected (buildExitMessage st none none)
  else .sent { st with nextId := st.nextId + 1
                       pending := st.pending ++ [st.nextId] } st.nextId

/-- C6: on process exit every still-pending request is rejected with one
and the same error, whose message combines the exit code/signal with the
last captured stderr line (when one exists); the pending table becomes
empty; and on the resulting state every later `request()` call rejects
immediately without writing. -/
theorem C6_exit_handling (st : ClientState) (code : Option Int)
    (signal : Option String) :
    (handleExit st code signal).1.pending = [] ∧
      (handleExit st code signal).1.exited = true ∧
      (handleExit st code signal).2.2 =
        st.pending.map (fun i => (i, (handleExit st code signal).2.1)) ∧
      (∀ p1 p2, p1 ∈ (handleExit st code signal).2.2 →
        p2 ∈ (handleExit st code signal).2.2 → p1.2 = p2.2) ∧
      (∀ last, st.stderrBuffer.getLast? = some last →
        (handleExit st code signal).2.1 =
          exitMessageCore code signal ++ "; stderr: " ++ last) ∧
      (st.stderrBuffer.getLast? = none →
        (handleExit st code signal).2.1 = exitMessageCore code signal) ∧
      request (handleExit st code signal).1 =
        .rejected (buildExitMessage (handleExit st code signal).1 none none) := by
  refine ⟨rfl, rfl, rfl, ?_, ?_, ?_, ?_⟩
  · intro p1 p2 h1 h2
    simp only [handleExit, List.mem_map] at h1 h2
    obtain ⟨i1, _, hp1⟩ := h1
    obtain ⟨i2, _, hp2⟩ := h2
    rw [← hp1, ← hp2]
  · intro last hlast
    simp [handleExit, buildExitMessage, hlast, append_assoc_str]
  · intro hnone
    simp [handleExit, buildExitMessage, hnone]
  · simp [request, handleExit]

/-- C6 witness: a concrete client with pending requests 1-3 and two
captured stderr lines; on exit (code 1, no signal) all three are rejected
with the one message carrying the last stderr line, and a later request
on the post-exit state rejects. -/
theorem C6_witness :
    (handleExit (ClientState.mk 5 [1, 2, 3] false ["warn", "boom"])
          (some 1) none).1.pending = [] ∧
      (handleExit (ClientState.mk 5 [1, 2, 3] false ["warn", "boom"])
          (some 1) none).2.1 =
        exitMessageCore (some 1) none ++ "; stderr: " ++ "boom" := by
  refine ⟨(C6_exit_handling (ClientState.mk 5 [1, 2, 3] false
    ["warn", "boom"]) (some 1) none).1, ?_⟩
  exact (C6_exit_handling (ClientState.mk 5 [1, 2, 3] false
    ["warn", "boom"]) (some 1) none).2.2.2.2.1 "boom" rfl

/-! ## Thread lifecycle (`src/codex/thread.ts`, re-exported content seen at
`src/i18n/messages.ts` lines 137-163) -/

/-- `OpenThreadResult`: the parsed result of `thread/start` /
`thread/resume`. -/
structure OpenThreadResult where
  threadId : String
  cwd : String
  model : String
deriving DecidableEq, Repr

/-- A thrown JavaScript value: an `Error` with a message, or any non-Error
throwable (for which `error instanceof Error` is false). -/
inductive ThrownValue where
  | error (message : String)
  | other
deriving DecidableEq, Repr

/-- `pat` is a prefix of the second list. -/
def listStartsWith : List Char → List Char → Bool
  | [], _ => true
  | _ :: _, [] => false
  | a :: as, b :: bs => a = b && listStartsWith as bs

/-- `pat` occurs as a contiguous sublist (JavaScript
`String.prototype.includes`). -/
def containsSub (pat : List Char) : List Char → Bool
  | [] => pat.isEmpty
  | c :: rest => listStartsWith pat (c :: rest) || containsSub pat rest

/-- `isThreadMissingError`: the thrown value is an `Error` whose message
contains the substring `"thread not found"`. -/
def isThreadMissingError : ThrownValue → Bool
  | .error m => containsSub "thread not found".data m.data
  | .other => false

/-- The outcome of one `startThread` / `resumeThread` call: a parsed
result or a thrown value. -/
inductive ThreadCallOutcome where
  | ok (r : OpenThreadResult)
  | thrown (v : ThrownValue)
deriving DecidableEq, Repr

/-- A request issued to the backend by the thread lifecycle:
`thread/start` with the requested cwd, or `thread/resume` with the
session's thread id. -/
inductive ThreadRequest where
  | start (cwd : String)
  | resume (threadId : String)
deriving DecidableEq, Repr

/-- `openThread` from `src/codex/thread.ts` (seen at
`src/i18n/messages.ts` lines 137-163), with the two possible backend
calls modelled by oracles: `resumeO` is the outcome `resumeThread(client,
session.threadId)` would produce and `startO` the outcome
`startThread(client, cwd)` would produce.  Returns the list of issued
requests in order and the overall outcome. -/
def openThread (session : Option BotSession) (cwd : String)
    (resumeO startO : ThreadCallOutcome) :
    List ThreadRequest × ThreadCallOutcome :=
  match session with
  | none => ([.start cwd], startO)
  | some s =>
      if s.cwd ≠ cwd then ([.start cwd], startO)
      else
        match resumeO with
        | .ok resumed =>
            if resumed.cwd ≠ cwd then
              ([.resume s.threadId, .start cwd], startO)
            else ([.resume s.threadId], .ok resumed)
        | .thrown v =>
            if isThreadMissingError v then
              ([.resume s.threadId, .start cwd], startO)
            else ([.resume s.threadId], .thrown v)

/-- C3: with no prior session `openThread` issues exactly one
`thread/start` and never a resume; with a session whose recorded cwd
matches, it issues `thread/resume` first and issues `thread/start`
exactly when the resume failed with a not-found-shaped error or the
resumed thread reported a different cwd, while any other resume failure
propagates as the outcome; with a session whose recorded cwd differs it
issues only `thread/start`. -/
theorem C3_open_thread (cwd : String) (rO sO : ThreadCallOutcome) :
    (openThread none cwd rO sO).1 = [ThreadRequest.start cwd] ∧
      (∀ s : BotSession,
        (s.cwd = cwd →
          (openThread (some s) cwd rO sO).1.head? =
              some (ThreadRequest.resume s.threadId) ∧
            (ThreadRequest.start cwd ∈ (openThread (some s) cwd rO sO).1 ↔
              (∃ v, rO = .thrown v ∧ isThreadMissingError v = true) ∨
                (∃ r, rO = .ok r ∧ r.cwd ≠ cwd)) ∧
            (∀ v, rO = .thrown v → isThreadMissingError v = false →
              (openThread (some s) cwd rO sO).2 = .thrown v)) ∧
        (s.cwd ≠ cwd →
          (openThread (some s) cwd rO sO).1 = [ThreadRequest.start cwd])) := by
  refine ⟨rfl, ?_⟩
  intro s
  constructor
  · intro hcwd
    cases rO with
    | ok r =>
        by_cases hr : r.cwd = cwd
        · refine ⟨by simp [openThread, hcwd, hr], ?_, ?_⟩
          · simp [openThread, hcwd, hr]
          · intro v hv
            exact absurd hv (by simp)
        · refine ⟨by simp [openThread, hcwd, hr], ?_, ?_⟩
          · simp [openThread, hcwd, hr]
          · intro v hv
            exact absurd hv (by simp)
    | thrown v =>
        by_cases hv : isThreadMissingError v = true
        · refine ⟨by simp [openThread, hcwd, hv], ?_, ?_⟩
          · simp [openThread, hcwd, hv]
          · intro v' hv' hm
            obtain rfl : v = v' := by simpa using hv'
            rw [hv] at hm
            cases hm
        · have hv' : isThreadMissingError v = false := by simpa using hv
          refine ⟨by simp [openThread, hcwd, hv'], ?_, ?_⟩
          · simp [openThread, hcwd, hv']
          · intro v'' h _
            obtain rfl : v = v'' := by simpa using h
            simp [openThread, hcwd, hv']
  · intro hne
    simp [openThread, hne]

/-- C3 witness: a session recorded at the requested cwd whose resume
fails with a not-found-shaped error leads to resume-then-start. -/
theorem C3_witness :
    (openThread (some (BotSession.mk "t1" "m" ChatMode.default "w" none))
        "w" (ThreadCallOutcome.thrown (ThrownValue.error
          "Codex RPC error (404): thread not found: t1"))
        (ThreadCallOutcome.ok (OpenThreadResult.mk "t2" "w" "m"))).1.head? =
      some (ThreadRequest.resume "t1") ∧
      ThreadRequest.start "w" ∈
        (openThread (some (BotSession.mk "t1" "m" ChatMode.default "w" none))
          "w" (ThreadCallOutcome.thrown (ThrownValue.error
            "Codex RPC error (404): thread not found: t1"))
          (ThreadCallOutcome.ok (OpenThreadResult.mk "t2" "w" "m"))).1 := by
  have h := (C3_open_thread "w"
    (ThreadCallOutcome.thrown (ThrownValue.error
      "Codex RPC error (404): thread not found: t1"))
    (ThreadCallOutcome.ok (OpenThreadResult.mk "t2" "w" "m"))).2
    (BotSession.mk "t1" "m" ChatMode.default "w" none)
  obtain ⟨hhead, hmem, _⟩ := h.1 rfl
  refine ⟨hhead, hmem.mpr (Or.inl ⟨_, rfl, by decide⟩)⟩

/-! ## Session store with persistence (`src/bot-handler.ts` session-store
module, lines 116-606)

JavaScript objects used as string-keyed maps are modelled as association
lists with the JS update semantics: assigning an existing key replaces the
value in place, assigning a fresh key appends.  The on-disk file is
modelled by the typed `PersistedSessionsFileV1` value: `JSON.stringify`
followed by `JSON.parse` is the identity on this shape (all fields are
strings/objects/arrays; an absent optional `title` is dropped and read
back as `undefined`), so `readPersistedSessionsFile` is modelled as the
validation pass `parsePersistedSessionsFile` applied to the stored value.
Checks that are vacuous on the typed representation (root is an object,
`version === 1`, `updatedAt` is a string, fields have the right runtime
type) always pass; the residual checks (non-empty `threadId`/`model`,
`sessionKey` fallback, title normalization, re-keying by `threadId`) are
embedded faithfully. -/

/-- JS object update: replace in place when the key exists, else append
(JS objects have unique keys, so replacing the first occurrence is the
general semantics). -/
def alSet {α : Type} : List (String × α) → String → α → List (String × α)
  | [], k, v => [(k, v)]
  | a :: t, k, v => if a.1 = k then (k, v) :: t else a :: alSet t k v

/-- JS `Map.delete` / `delete obj[k]` for a single key. -/
def alRemove {α : Type} (l : List (String × α)) (k : String) :
    List (String × α) :=
  l.filter (fun p => ¬p.1 = k)

/-- `PersistedSessionRef` from `src/bot-handler.ts` lines 125-132. -/
structure PersistedSessionRef where
  sessionKey : String
  threadId : String
  mode : ChatMode
  model : String
  title : Option String
  savedAt : String
deriving DecidableEq, Repr

/-- `PersistedWorkspaceSessions` (lines 134-137): both maps are keyed by
thread id. -/
structure PersistedWorkspaceSessions where
  activeBySessionKey : List (String × PersistedSessionRef)
  historyBySessionKey : List (String × List PersistedSessionRef)
deriving DecidableEq, Repr

/-- `PersistedSessionsFileV1` (lines 139-143); `version` is fixed at 1 and
therefore omitted from the representation. -/
structure PersistedSessionsFileV1 where
  updatedAt : String
  workspaces : List (String × PersistedWorkspaceSessions)
deriving DecidableEq, Repr

/-- `SessionStorePersistenceState` (lines 145-149); the file path is
filesystem-bound and no claim depends on it. -/
structure SessionStorePersistenceState where
  workspaceCwd : String
  data : PersistedSessionsFileV1
deriving DecidableEq, Repr

/-- The module-level mutable state: the in-memory `sessionStore` map and
the optional persistence state (whose `data` equals the file content
after every successful write). -/
structure StoreState where
  sessionStore : List (String × BotSession)
  persistence : Option SessionStorePersistenceState
deriving DecidableEq, Repr

/-- JavaScript `String.prototype.trim`, executable over the character
list (drops leading and trailing whitespace; Lean's built-in
`String.trim` does not reduce in the kernel). -/
def jsTrim (s : String) : String :=
  String.mk (((s.data.dropWhile Char.isWhitespace).reverse.dropWhile
    Char.isWhitespace).reverse)

/-- `normalizeOptionalTitle` (lines 526-537): non-strings (modelled as
`none`) and blank strings become `undefined`; others are trimmed. -/
def normalizeOptionalTitle : Option String → Option String
  | none => none
  | some t => if jsTrim t = "" then none else some (jsTrim t)

/-- `hydrateSession` (lines 496-507): the hydrated session takes the
caller's `cwd` (persisted records carry none) and a re-normalized
title. -/
def hydrateSession (sessionRef : PersistedSessionRef) (cwd : String) :
    BotSession :=
  { threadId := sessionRef.threadId
    model := sessionRef.model
    mode := sessionRef.mode
    cwd := cwd
    title := normalizeOptionalTitle sessionRef.title }

/-- `toPersistedSessionRef` (lines 509-524). -/
def toPersistedSessionRef (sessionKey : String) (session : BotSession)
    (savedAt : String) : PersistedSessionRef :=
  { sessionKey := sessionKey
    threadId := session.threadId
    mode := session.mode
    model := session.model
    title := normalizeOptionalTitle session.title
    savedAt := savedAt }

/-- `removeActiveSessionBySessionKey` (lines 593-606): deletes every
active entry whose record's `sessionKey` matches; reports whether
anything was deleted. -/
def removeActiveSessionBySessionKey
    (active : List (String × PersistedSessionRef)) (sessionKey : String) :
    List (String × PersistedSessionRef) × Bool :=
  (active.filter (fun p => ¬p.2.sessionKey = sessionKey),
    active.any (fun p => p.2.sessionKey = sessionKey))

/-- `persistSetSession` (lines 240-265): builds the record, replaces the
single active record for the session key, re-keys it under the thread id,
appends a copy to the thread id's history, stamps `updatedAt` and writes.
Returns the new state and whether a write happened. -/
def persistSetSession (st : StoreState) (sessionKey : String)
    (session : BotSession) (savedAt : String) : StoreState × Bool :=
  match st.persistence with
  | none => (st, false)
  | some ps =>
      let ref := toPersistedSessionRef sessionKey session savedAt
      let ws :=
        match alLookup ps.data.workspaces ps.workspaceCwd with
        | some ws => ws
        | none => PersistedWorkspaceSessions.mk [] []
      let active1 :=
        (removeActiveSessionBySessionKey ws.activeBySessionKey sessionKey).1
      let active2 := alSet active1 session.threadId ref
      let history :=
        match alLookup ws.historyBySessionKey session.threadId with
        | some h => h
        | none => []
      let history2 :=
        alSet ws.historyBySessionKey session.threadId (history ++ [ref])
      let data2 : PersistedSessionsFileV1 :=
        { updatedAt := savedAt
          workspaces := alSet ps.data.workspaces ps.workspaceCwd
            (PersistedWorkspaceSessions.mk active2 history2) }
      ({ st with persistence := some ⟨ps.workspaceCwd, data2⟩ }, true)

/-- `persistClearSession` (lines 267-287): removes the active records for
the key in the current workspace; stamps and writes only when something
was actually removed. -/
def persistClearSession (st : StoreState) (sessionKey : String)
    (now : String) : StoreState × Bool :=
  match st.persistence with
  | none => (st, false)
  | some ps =>
      match alLookup ps.data.workspaces ps.workspaceCwd with
      | none => (st, false)
      | some ws =>
          let rm := removeActiveSessionBySessionKey
            ws.activeBySessionKey sessionKey
          if rm.2 = false then (st, false)
          else
            let data2 : PersistedSessionsFileV1 :=
              { updatedAt := now
                workspaces := alSet ps.data.workspaces ps.workspaceCwd
                  (PersistedWorkspaceSessions.mk rm.1
                    ws.historyBySessionKey) }
            ({ st with persistence := some ⟨ps.workspaceCwd, data2⟩ }, true)

/-- `getSession` (lines 195-197). -/
def getSession (st : StoreState) (sessionKey : String) : Option BotSession :=
  alLookup st.sessionStore sessionKey

/-- `setSession` (lines 199-202): updates the in-memory map and persists
(`savedAt` stands for `new Date().toISOString()`). -/
def setSession (st : StoreState) (sessionKey : String) (session : BotSession)
    (savedAt : String) : StoreState × Bool :=
  persistSetSession
    { st with sessionStore := alSet st.sessionStore sessionKey session }
    sessionKey session savedAt

/-- `clearSession` (lines 204-207). -/
def clearSession (st : StoreState) (sessionKey : String) (now : String) :
    StoreState × Bool :=
  persistClearSession
    { st with sessionStore := alRemove st.sessionStore sessionKey }
    sessionKey now

/-- `resetSessionStore` (lines 234-238). -/
def resetSessionStore : StoreState :=
  { sessionStore := [], persistence := none }

/-- `parsePersistedSessionRef` (lines 441-494) on the typed
representation: rejects blank `threadId`/`model`, falls back to the entry
key for a blank `sessionKey`, and re-normalizes the title. -/
def parsePersistedSessionRef (ref : PersistedSessionRef)
    (fallbackSessionKey : String) : Except String PersistedSessionRef :=
  if jsTrim ref.threadId = "" then
    .error "threadId must be a non-empty string."
  else if jsTrim ref.model = "" then
    .error "model must be a non-empty string."
  else
    .ok { sessionKey :=
            if jsTrim ref.sessionKey = "" then fallbackSessionKey
            else ref.sessionKey
          threadId := ref.threadId
          mode := ref.mode
          model := ref.model
          title := normalizeOptionalTitle ref.title
          savedAt := ref.savedAt }

/-- The active-map part of `parseWorkspaceSessions` (lines 397-408):
each entry is validated (fallback key = entry key) and re-keyed under the
record's `threadId`.  Accumulator-passing recursion models the source's
loop with exception propagation. -/
def parseActiveMap (acc : List (String × PersistedSessionRef)) :
    List (String × PersistedSessionRef) →
      Except String (List (String × PersistedSessionRef))
  | [] => .ok acc
  | p :: rest =>
      match parsePersistedSessionRef p.2 p.1 with
      | .error e => .error e
      | .ok ref => parseActiveMap (alSet acc ref.threadId ref) rest

/-- Validation of one history array (the `historyValue.map` of lines
420-427). -/
def parseRefList (fallbackSessionKey : String) :
    List PersistedSessionRef → Except String (List PersistedSessionRef)
  | [] => .ok []
  | item :: rest =>
      match parsePersistedSessionRef item fallbackSessionKey with
      | .error e => .error e
      | .ok ref =>
          match parseRefList fallbackSessionKey rest with
          | .error e => .error e
          | .ok refs => .ok (ref :: refs)

/-- Regrouping of parsed history records by their `threadId` (lines
428-432). -/
def regroupHistory (acc : List (String × List PersistedSessionRef))
    (refs : List PersistedSessionRef) :
    List (String × List PersistedSessionRef) :=
  refs.foldl
    (fun acc2 ref =>
      let h :=
        match alLookup acc2 ref.threadId with
        | some h => h
        | none => []
      alSet acc2 ref.threadId (h ++ [ref]))
    acc

/-- The history part of `parseWorkspaceSessions` (lines 410-433): every
item of every entry is validated, then regrouped by the record's
`threadId`. -/
def parseHistoryMap (acc : List (String × List PersistedSessionRef)) :
    List (String × List PersistedSessionRef) →
      Except String (List (String × List PersistedSessionRef))
  | [] => .ok acc
  | p :: rest =>
      match parseRefList p.1 p.2 with
      | .error e => .error e
      | .ok parsed => parseHistoryMap (regroupHistory acc parsed) rest

/-- `parseWorkspaceSessions` (lines 374-439). -/
def parseWorkspaceSessions (ws : PersistedWorkspaceSessions) :
    Except String PersistedWorkspaceSessions :=
  match parseActiveMap [] ws.activeBySessionKey with
  | .error e => .error e
  | .ok active =>
      match parseHistoryMap [] ws.historyBySessionKey with
      | .error e => .error e
      | .ok history => .ok (PersistedWorkspaceSessions.mk active history)

/-- The workspace loop of `parsePersistedSessionsFile` (lines 356-365). -/
def parseWorkspacesList (acc : List (String × PersistedWorkspaceSessions)) :
    List (String × PersistedWorkspaceSessions) →
      Except String (List (String × PersistedWorkspaceSessions))
  | [] => .ok acc
  | p :: rest =>
      match parseWorkspaceSessions p.2 with
      | .error e => .error e
      | .ok ws => parseWorkspacesList (alSet acc p.1 ws) rest

/-- `parsePersistedSessionsFile` (lines 328-372) on the typed
representation: validates every workspace (the structural and version
checks hold by typing). -/
def parsePersistedSessionsFile (data : PersistedSessionsFileV1) :
    Except String PersistedSessionsFileV1 :=
  match parseWorkspacesList [] data.workspaces with
  | .error e => .error e
  | .ok workspaces =>
      .ok (PersistedSessionsFileV1.mk data.updatedAt workspaces)

/-- `initializeSessionStore` (lines 153-185): re-reads and validates the
file (modelled by its typed content; directory/file creation is
filesystem-bound and only runs when no file exists yet), clears the
in-memory maps, and hydrates only the active records of the requested
workspace, keyed by each record's `sessionKey`. -/
def initializeSessionStore (fileData : PersistedSessionsFileV1)
    (workspaceCwd : String) : Except String StoreState :=
  match parsePersistedSessionsFile fileData with
  | .error e => .error e
  | .ok persisted =>
      .ok (StoreState.mk
        (match alLookup persisted.workspaces workspaceCwd with
          | some ws =>
              ws.activeBySessionKey.foldl
                (fun m p =>
                  alSet m p.2.sessionKey (hydrateSession p.2 workspaceCwd))
                []
          | none => [])
        (some ⟨workspaceCwd, persisted⟩))

/-! ### Association-list lemmas -/

theorem alLookup_cons {α : Type} (a : String × α) (l : List (String × α))
    (k : String) :
    alLookup (a :: l) k = if a.1 = k then some a.2 else alLookup l k := by
  by_cases h : a.1 = k
  · simp [alLookup, List.find?_cons_of_pos, h]
  · simp only [alLookup, h, if_false]
    rw [List.find?_cons_of_neg]
    simp [h]

theorem alLookup_alSet_self {α : Type} (l : List (String × α)) (k : String)
    (v : α) : alLookup (alSet l k v) k = some v := by
  induction l with
  | nil => simp [alSet, alLookup_cons]
  | cons a t ih =>
      by_cases h : a.1 = k
      · simp [alSet, h, alLookup_cons]
      · simp only [alSet, if_neg h]
        rw [alLookup_cons, if_neg h]
        exact ih

theorem alLookup_alSet_ne {α : Type} (l : List (String × α)) (k k' : String)
    (v : α) (h : ¬k' = k) :
    alLookup (alSet l k v) k' = alLookup l k' := by
  have h' : ¬(k = k') := fun hk => h hk.symm
  induction l with
  | nil => simp [alSet, alLookup_cons, h', alLookup]
  | cons a t ih =>
      by_cases ha : a.1 = k
      · simp only [alSet, if_pos ha]
        rw [alLookup_cons, alLookup_cons, if_neg h', if_neg (ha ▸ h')]
      · simp only [alSet, if_neg ha]
        rw [alLookup_cons, alLookup_cons, ih]

theorem alSet_mem {α : Type} (l : List (String × α)) (k : String) (v : α)
    (p : String × α) (hp : p ∈ alSet l k v) : p = (k, v) ∨ p ∈ l := by
  induction l with
  | nil => simpa [alSet] using hp
  | cons a t ih =>
      by_cases h : a.1 = k
      · simp only [alSet, if_pos h, List.mem_cons] at hp
        rcases hp with h1 | h1
        · exact Or.inl h1
        · exact Or.inr (List.mem_cons_of_mem a h1)
      · simp only [alSet, if_neg h, List.mem_cons] at hp
        rcases hp with h1 | h1
        · exact Or.inr (h1 ▸ List.mem_cons_self a t)
        · rcases ih h1 with h2 | h2
          · exact Or.inl h2
          · exact Or.inr (List.mem_cons_of_mem a h2)

theorem filter_eq_self_of_none {α : Type} (l : List (String × α))
    (q : String × α → Prop) [DecidablePred q]
    (h : ∀ p ∈ l, ¬q p) :
    l.filter (fun p => ¬q p) = l := by
  induction l with
  | nil => rfl
  | cons a t ih =>
      have ha : ¬q a := h a (List.mem_cons_self a t)
      simp only [List.filter_cons, decide_eq_true_eq]
      rw [if_pos ha, ih (fun p hp => h p (List.mem_cons_of_mem a hp))]

/-! ### C7: clearSession frame properties -/

/-- C7: on an initialized store whose index has a record group for the
current workspace, `clearSession(k)` leaves the persisted index with
exactly the non-`k` active records of that workspace, leaves the whole
history map and every other workspace untouched, and reports a write
exactly when some active record for `k` existed. -/
theorem C7_clear_session (st : StoreState) (k now : String)
    (ps : SessionStorePersistenceState) (ws : PersistedWorkspaceSessions)
    (hps : st.persistence = some ps)
    (hws : alLookup ps.data.workspaces ps.workspaceCwd = some ws) :
    ∃ ps', (clearSession st k now).1.persistence = some ps' ∧
      ps'.workspaceCwd = ps.workspaceCwd ∧
      (∃ ws', alLookup ps'.data.workspaces ps.workspaceCwd = some ws' ∧
        ws'.activeBySessionKey =
          ws.activeBySessionKey.filter (fun p => ¬p.2.sessionKey = k) ∧
        ws'.historyBySessionKey = ws.historyBySessionKey) ∧
      (∀ w, ¬w = ps.workspaceCwd →
        alLookup ps'.data.workspaces w = alLookup ps.data.workspaces w) ∧
      ((clearSession st k now).2 = true ↔
        ∃ p ∈ ws.activeBySessionKey, p.2.sessionKey = k) := by
  by_cases hany :
      ws.activeBySessionKey.any (fun p => p.2.sessionKey = k) = true
  · have hc : clearSession st k now =
        ({ sessionStore := alRemove st.sessionStore k
           persistence := some ⟨ps.workspaceCwd,
             { updatedAt := now
               workspaces := alSet ps.data.workspaces ps.workspaceCwd
                 (PersistedWorkspaceSessions.mk
                   (ws.activeBySessionKey.filter
                     (fun p => ¬p.2.sessionKey = k))
                   ws.historyBySessionKey) }⟩ }, true) := by
      simp [clearSession, persistClearSession, hps, hws,
        removeActiveSessionBySessionKey, hany]
    rw [hc]
    refine ⟨_, rfl, rfl, ⟨_, alLookup_alSet_self _ _ _, rfl, rfl⟩, ?_, ?_⟩
    · intro w hw
      exact alLookup_alSet_ne _ _ _ _ hw
    · constructor
      · intro _
        obtain ⟨p, hp, hk⟩ := List.any_eq_true.mp hany
        exact ⟨p, hp, by simpa using hk⟩
      · intro _
        rfl
  · have hany' :
        ws.activeBySessionKey.any (fun p => p.2.sessionKey = k) = false := by
      simpa using hany
    have hc : clearSession st k now =
        ({ sessionStore := alRemove st.sessionStore k
           persistence := st.persistence }, false) := by
      simp [clearSession, persistClearSession, hps, hws,
        removeActiveSessionBySessionKey, hany']
    rw [hc]
    refine ⟨ps, hps, rfl, ⟨ws, hws, ?_, rfl⟩, fun w _ => rfl, ?_⟩
    · rw [filter_eq_self_of_none]
      intro p hp
      have := List.any_eq_false.mp hany' p hp
      simpa using this
    · constructor
      · intro hfalse
        cases hfalse
      · rintro ⟨p, hp, hk⟩
        have := List.any_eq_false.mp hany' p hp
        simp [hk] at this

/-- C7 witness: a workspace with one active record for key `"a"` and a
history entry for `"a"`: clearing `"a"` writes, empties the active map,
and keeps the history. -/
theorem C7_witness :
    (clearSession (StoreState.mk []
        (some ⟨"/w", ⟨"t0",
          [("/w", PersistedWorkspaceSessions.mk
            [("th", PersistedSessionRef.mk "a" "th" ChatMode.default
              "m" none "d")]
            [("th", [PersistedSessionRef.mk "a" "th" ChatMode.default
              "m" none "d"])])]⟩⟩))
      "a" "t1").2 = true := by
  obtain ⟨ps', _, _, _, _, hw⟩ := C7_clear_session
    (StoreState.mk []
      (some ⟨"/w", ⟨"t0",
        [("/w", PersistedWorkspaceSessions.mk
          [("th", PersistedSessionRef.mk "a" "th" ChatMode.default
            "m" none "d")]
          [("th", [PersistedSessionRef.mk "a" "th" ChatMode.default
            "m" none "d"])])]⟩⟩))
    "a" "t1" _ _ rfl (by rfl)
  exact hw.mpr ⟨_, List.mem_cons_self _ _, rfl⟩

/-! ### C10: hydration forces the workspace cwd -/

/-- C10: persisted records carry no cwd, so `hydrateSession` gives every
hydrated session the caller's workspace cwd and the re-normalized stored
title (trimmed, or absent when blank or absent), keeping the other
fields; consequently every session hydrated by `initializeSessionStore`
has the configured workspace cwd. -/
theorem C10_hydration_cwd :
    (∀ (ref : PersistedSessionRef) (cwd : String),
      (hydrateSession ref cwd).cwd = cwd ∧
        (hydrateSession ref cwd).threadId = ref.threadId ∧
        (hydrateSession ref cwd).model = ref.model ∧
        (hydrateSession ref cwd).mode = ref.mode ∧
        (hydrateSession ref cwd).title = normalizeOptionalTitle ref.title) ∧
      (∀ t : String, ¬jsTrim t = "" →
        normalizeOptionalTitle (some t) = some (jsTrim t)) ∧
      (∀ t : String, jsTrim t = "" → normalizeOptionalTitle (some t) = none) ∧
      normalizeOptionalTitle none = none ∧
      (∀ (fileData : PersistedSessionsFileV1) (w : String) (st : StoreState),
        initializeSessionStore fileData w = .ok st →
        ∀ p ∈ st.sessionStore, p.2.cwd = w) := by
  refine ⟨fun ref cwd => ⟨rfl, rfl, rfl, rfl, rfl⟩,
    fun t ht => by simp [normalizeOptionalTitle, ht],
    fun t ht => by simp [normalizeOptionalTitle, ht], rfl, ?_⟩
  intro fileData w st hinit p hp
  unfold initializeSessionStore at hinit
  cases hparse : parsePersistedSessionsFile fileData with
  | error e => rw [hparse] at hinit; cases hinit
  | ok persisted =>
      rw [hparse] at hinit
      have hstore := congrArg StoreState.sessionStore
        (Except.ok.inj hinit).symm
      have main : ∀ (l : List (String × PersistedSessionRef))
          (m : List (String × BotSession)),
          (∀ r ∈ m, (r.2 : BotSession).cwd = w) →
          ∀ r ∈ l.foldl (fun m p =>
              alSet m p.2.sessionKey (hydrateSession p.2 w)) m,
            (r.2 : BotSession).cwd = w := by
        intro l
        induction l with
        | nil => intro m hm r hr; exact hm r hr
        | cons a t ih =>
            intro m hm r hr
            refine ih _ ?_ r hr
            intro q hq
            rcases alSet_mem _ _ _ _ hq with h | h
            · rw [h]
              simp [hydrateSession]
            · exact hm q h
      rw [hstore] at hp
      cases hws : alLookup persisted.workspaces w with
      | none => rw [hws] at hp; simp at hp
      | some ws =>
          rw [hws] at hp
          exact main _ _ (by intro r hr; simp at hr) p hp

/-- C10 witness: a hand-written index with a padded title hydrates at
workspace `/w` to a session with cwd `/w` and the trimmed title. -/
theorem C10_witness :
    (hydrateSession (PersistedSessionRef.mk "k" "th" ChatMode.default "m"
        (some "  hi  ") "d") "/w").cwd = "/w" ∧
      (hydrateSession (PersistedSessionRef.mk "k" "th" ChatMode.default "m"
        (some "  hi  ") "d") "/w").title = some "hi" := by
  refine ⟨(C10_hydration_cwd.1 _ "/w").1, ?_⟩
  have h1 := (C10_hydration_cwd.1 (PersistedSessionRef.mk "k" "th"
    ChatMode.default "m" (some "  hi  ") "d") "/w").2.2.2.2
  have h2 := C10_hydration_cwd.2.1 "  hi  " (by decide)
  rw [h1, h2]
  decide

/-! ### C4: round trip through the persisted index

Further association-list lemmas used by the restart argument. -/

/-- The keys of an association list. -/
def alKeys {α : Type} (l : List (String × α)) : List String :=
  l.map Prod.fst

theorem alLookup_eq_none_iff {α : Type} (l : List (String × α)) (k : String) :
    alLookup l k = none ↔ k ∉ alKeys l := by
  induction l with
  | nil => simp [alLookup, alKeys]
  | cons a t ih =>
      rw [alLookup_cons]
      by_cases h : a.1 = k
      · simp only [if_pos h, alKeys, List.map_cons, List.mem_cons]
        constructor
        · intro hx; cases hx
        · intro hx
          exact absurd (Or.inl h.symm) hx
      · simp only [if_neg h, alKeys, List.map_cons, List.mem_cons]
        rw [ih]
        unfold alKeys
        constructor
        · intro hx hmem
          rcases hmem with h1 | h1
          · exact h h1.symm
          · exact hx h1
        · intro hx h1
          exact hx (Or.inr h1)

theorem alSet_of_lookup_none {α : Type} (l : List (String × α)) (k : String)
    (v : α) (h : alLookup l k = none) : alSet l k v = l ++ [(k, v)] := by
  induction l with
  | nil => rfl
  | cons a t ih =>
      rw [alLookup_cons] at h
      by_cases ha : a.1 = k
      · rw [if_pos ha] at h
        cases h
      · rw [if_neg ha] at h
        simp only [alSet, if_neg ha, List.cons_append]
        rw [ih h]

theorem alLookup_mem {α : Type} (l : List (String × α)) (k : String) (v : α)
    (h : alLookup l k = some v) : (k, v) ∈ l := by
  induction l with
  | nil => cases h
  | cons a t ih =>
      rw [alLookup_cons] at h
      by_cases ha : a.1 = k
      · rw [if_pos ha] at h
        have : a = (k, v) := by
          cases a
          simp only at ha
          simp only [Option.some.injEq] at h
          simp [ha, h]
        rw [← this]
        exact List.mem_cons_self a t
      · rw [if_neg ha] at h
        exact List.mem_cons_of_mem a (ih h)

theorem alKeys_alSet_mem {α : Type} (l : List (String × α)) (k : String)
    (v : α) : ∀ x ∈ alKeys (alSet l k v), x = k ∨ x ∈ alKeys l := by
  induction l with
  | nil => simp [alSet, alKeys]
  | cons a t ih =>
      by_cases ha : a.1 = k
      · intro x hx
        simp only [alSet, if_pos ha, alKeys, List.map_cons, List.mem_cons]
          at hx ⊢
        rcases hx with h1 | h1
        · exact Or.inl h1
        · exact Or.inr (Or.inr h1)
      · intro x hx
        simp only [alSet, if_neg ha, alKeys, List.map_cons, List.mem_cons]
          at hx ⊢
        rcases hx with h1 | h1
        · exact Or.inr (Or.inl h1)
        · rcases ih x h1 with h2 | h2
          · exact Or.inl h2
          · exact Or.inr (Or.inr h2)

theorem alKeys_alSet_nodup {α : Type} (l : List (String × α)) (k : String)
    (v : α) (h : (alKeys l).Nodup) : (alKeys (alSet l k v)).Nodup := by
  induction l with
  | nil => simp [alSet, alKeys]
  | cons a t ih =>
      simp only [alKeys, List.map_cons, List.nodup_cons] at h
      by_cases ha : a.1 = k
      · simp only [alSet, if_pos ha, alKeys, List.map_cons, List.nodup_cons]
        exact ⟨ha ▸ h.1, h.2⟩
      · simp only [alSet, if_neg ha, alKeys, List.map_cons, List.nodup_cons]
        refine ⟨?_, ih h.2⟩
        intro hmem
        rcases alKeys_alSet_mem t k v a.1 hmem with h1 | h1
        · exact ha h1
        · exact h.1 h1

theorem alKeys_filter_nodup {α : Type} (l : List (String × α))
    (q : String × α → Bool) (h : (alKeys l).Nodup) :
    (alKeys (l.filter q)).Nodup := by
  have hs : List.Sublist (alKeys (l.filter q)) (alKeys l) :=
    (List.filter_sublist l).map Prod.fst
  exact hs.nodup h

theorem filter_alSet_single {α : Type} (P : String × α → Prop)
    [DecidablePred P] (l : List (String × α)) (k : String) (v : α)
    (hl : ∀ p ∈ l, ¬P p) (hv : P (k, v)) :
    (alSet l k v).filter (fun p => P p) = [(k, v)] := by
  induction l with
  | nil => simp [alSet, List.filter_cons, hv]
  | cons a t ih =>
      by_cases ha : a.1 = k
      · simp only [alSet, if_pos ha, List.filter_cons]
        rw [if_pos (by simpa using hv)]
        have : t.filter (fun p => P p) = [] := by
          rw [List.filter_eq_nil_iff]
          intro p hp
          simpa using hl p (List.mem_cons_of_mem a hp)
        rw [this]
      · simp only [alSet, if_neg ha, List.filter_cons]
        rw [if_neg (by simpa using hl a (List.mem_cons_self a t))]
        exact ih fun p hp => hl p (List.mem_cons_of_mem a hp)

/-- A persisted record that passes validation: non-blank thread id and
model. -/
def ValidRef (ref : PersistedSessionRef) : Prop :=
  ¬jsTrim ref.threadId = "" ∧ ¬jsTrim ref.model = ""

/-- An active entry as the store itself maintains it: a valid record with
a non-blank session key, an already-normalized title, keyed under its own
thread id. -/
def ValidActiveEntry (p : String × PersistedSessionRef) : Prop :=
  ValidRef p.2 ∧ ¬jsTrim p.2.sessionKey = "" ∧
    normalizeOptionalTitle p.2.title = p.2.title ∧ p.1 = p.2.threadId

/-- A well-formed workspace group, as produced by hydration followed by
any number of `setSession`/`clearSession` calls. -/
def WFWorkspace (ws : PersistedWorkspaceSessions) : Prop :=
  (∀ p ∈ ws.activeBySessionKey, ValidActiveEntry p) ∧
    (alKeys ws.activeBySessionKey).Nodup ∧
    (∀ q ∈ ws.historyBySessionKey, ∀ ref ∈ q.2, ValidRef ref)

/-- A well-formed persisted index. -/
def WFFile (data : PersistedSessionsFileV1) : Prop :=
  (∀ p ∈ data.workspaces, WFWorkspace p.2) ∧
    (alKeys data.workspaces).Nodup

theorem parseRef_id (ref : PersistedSessionRef) (fb : String)
    (h : ValidActiveEntry (ref.threadId, ref)) :
    parsePersistedSessionRef ref fb = .ok ref := by
  obtain ⟨⟨ht, hm⟩, hk, htitle, _⟩ := h
  unfold parsePersistedSessionRef
  rw [if_neg ht, if_neg hm, if_neg hk, htitle]

theorem parseRef_ok_of_valid (ref : PersistedSessionRef) (fb : String)
    (h : ValidRef ref) : ∃ r, parsePersistedSessionRef ref fb = .ok r := by
  unfold parsePersistedSessionRef
  rw [if_neg h.1, if_neg h.2]
  exact ⟨_, rfl⟩

theorem parseActiveMap_id (l acc : List (String × PersistedSessionRef))
    (hval : ∀ p ∈ l, ValidActiveEntry p)
    (hnodup : (alKeys (acc ++ l)).Nodup) :
    parseActiveMap acc l = .ok (acc ++ l) := by
  induction l generalizing acc with
  | nil => simp [parseActiveMap]
  | cons p rest ih =>
      have hp := hval p (List.mem_cons_self p rest)
      have hkey : p.1 = p.2.threadId := hp.2.2.2
      have hok : parsePersistedSessionRef p.2 p.1 = .ok p.2 :=
        parseRef_id p.2 p.1 (hkey ▸ hp)
      simp only [parseActiveMap, hok]
      have hsplit : alKeys (acc ++ p :: rest) =
          alKeys acc ++ (p.1 :: alKeys rest) := by
        simp [alKeys]
      rw [hsplit] at hnodup
      have hdisj := (List.nodup_append.mp hnodup).2.2
      have hnotin : p.1 ∉ alKeys acc := fun hmem =>
        hdisj hmem (List.mem_cons_self _ _)
      have hnone : alLookup acc p.2.threadId = none :=
        (alLookup_eq_none_iff acc p.2.threadId).mpr (hkey ▸ hnotin)
      rw [alSet_of_lookup_none _ _ _ hnone]
      have hpair : ((p.2.threadId : String), p.2) = p := by
        rw [← hkey]
      rw [hpair]
      have hassoc : (acc ++ [p]) ++ rest = acc ++ p :: rest := by
        simp
      have ih' := ih (acc ++ [p])
        (fun q hq => hval q (List.mem_cons_of_mem p hq))
        (by rw [hassoc, hsplit]; exact hnodup)
      rw [ih', hassoc]

theorem parseRefList_ok (refs : List PersistedSessionRef) (fb : String)
    (h : ∀ ref ∈ refs, ValidRef ref) :
    ∃ out, parseRefList fb refs = .ok out := by
  induction refs with
  | nil => exact ⟨[], rfl⟩
  | cons item rest ih =>
      obtain ⟨r, hr⟩ := parseRef_ok_of_valid item fb
        (h item (List.mem_cons_self item rest))
      obtain ⟨out, hout⟩ := ih fun ref href =>
        h ref (List.mem_cons_of_mem item href)
      exact ⟨r :: out, by simp [parseRefList, hr, hout]⟩

theorem parseHistoryMap_ok
    (entries : List (String × List PersistedSessionRef))
    (acc : List (String × List PersistedSessionRef))
    (h : ∀ q ∈ entries, ∀ ref ∈ q.2, ValidRef ref) :
    ∃ out, parseHistoryMap acc entries = .ok out := by
  induction entries generalizing acc with
  | nil => exact ⟨acc, rfl⟩
  | cons p rest ih =>
      obtain ⟨parsed, hp⟩ := parseRefList_ok p.2 p.1
        (h p (List.mem_cons_self p rest))
      obtain ⟨out, hout⟩ := ih (regroupHistory acc parsed)
        (fun q hq => h q (List.mem_cons_of_mem p hq))
      exact ⟨out, by simp [parseHistoryMap, hp, hout]⟩

theorem parseWorkspaceSessions_ok (ws : PersistedWorkspaceSessions)
    (h : WFWorkspace ws) :
    ∃ ws', parseWorkspaceSessions ws = .ok ws' ∧
      ws'.activeBySessionKey = ws.activeBySessionKey := by
  have hact : parseActiveMap [] ws.activeBySessionKey =
      .ok ([] ++ ws.activeBySessionKey) :=
    parseActiveMap_id _ _ h.1 (by simpa using h.2.1)
  obtain ⟨hist, hh⟩ := parseHistoryMap_ok ws.historyBySessionKey [] h.2.2
  refine ⟨PersistedWorkspaceSessions.mk ws.activeBySessionKey hist, ?_, rfl⟩
  simp [parseWorkspaceSessions, hact, hh]

theorem parseWorkspacesList_spec
    (entries : List (String × PersistedWorkspaceSessions))
    (acc : List (String × PersistedWorkspaceSessions))
    (hval : ∀ p ∈ entries, WFWorkspace p.2)
    (hnodup : (alKeys entries).Nodup) :
    ∃ out, parseWorkspacesList acc entries = .ok out ∧
      (∀ w, alLookup entries w = none → alLookup out w = alLookup acc w) ∧
      (∀ w ws, alLookup entries w = some ws → alLookup acc w = none →
        ∃ ws', alLookup out w = some ws' ∧
          ws'.activeBySessionKey = ws.activeBySessionKey) := by
  induction entries generalizing acc with
  | nil =>
      refine ⟨acc, rfl, fun w _ => rfl, fun w ws hw _ => ?_⟩
      cases hw
  | cons p rest ih =>
      obtain ⟨pws, hpar, hact⟩ := parseWorkspaceSessions_ok p.2
        (hval p (List.mem_cons_self p rest))
      simp only [alKeys, List.map_cons, List.nodup_cons] at hnodup
      obtain ⟨out, hrun, ha, hb⟩ := ih (alSet acc p.1 pws)
        (fun q hq => hval q (List.mem_cons_of_mem p hq)) hnodup.2
      refine ⟨out, by simp [parseWorkspacesList, hpar, hrun], ?_, ?_⟩
      · intro w hw
        rw [alLookup_cons] at hw
        by_cases hpw : p.1 = w
        · rw [if_pos hpw] at hw
          cases hw
        · rw [if_neg hpw] at hw
          rw [ha w hw]
          exact alLookup_alSet_ne _ _ _ _ fun he => hpw he.symm
      · intro w ws hw hacc
        rw [alLookup_cons] at hw
        by_cases hpw : p.1 = w
        · rw [if_pos hpw] at hw
          obtain rfl : p.2 = ws := by simpa using hw
          have hrest : alLookup rest w = none :=
            (alLookup_eq_none_iff rest w).mpr (hpw ▸ hnodup.1)
          have := ha w hrest
          rw [this, ← hpw, alLookup_alSet_self]
          exact ⟨pws, rfl, hact⟩
        · rw [if_neg hpw] at hw
          have hacc' : alLookup (alSet acc p.1 pws) w = none := by
            rw [alLookup_alSet_ne _ _ _ _ fun he => hpw he.symm]
            exact hacc
          exact hb w ws hw hacc'

theorem hydrateFold_lookup (cwd : String)
    (l : List (String × PersistedSessionRef)) :
    ∀ (m : List (String × BotSession)) (k : String),
    alLookup (l.foldl
        (fun m p => alSet m p.2.sessionKey (hydrateSession p.2 cwd)) m) k =
      lastOr ((l.filter (fun p => p.2.sessionKey = k)).map
        (fun p => hydrateSession p.2 cwd)) (alLookup m k) := by
  induction l with
  | nil => intro m k; simp [lastOr]
  | cons a t ih =>
      intro m k
      simp only [List.foldl_cons]
      rw [ih]
      by_cases hk : a.2.sessionKey = k
      · rw [List.filter_cons_of_pos (by simpa using hk)]
        rw [List.map_cons, lastOr_cons]
        rw [hk, alLookup_alSet_self]
      · rw [List.filter_cons_of_neg (by simpa using hk)]
        rw [alLookup_alSet_ne _ _ _ _ fun he => hk he.symm]

/-- Core of the restart argument: initializing from an index whose
current-workspace group is well-formed and has exactly one active record
for the key `k` hydrates that record under `k`. -/
theorem C4core (origWs : List (String × PersistedWorkspaceSessions))
    (w : String) (ws2 : PersistedWorkspaceSessions) (upd k t : String)
    (ref : PersistedSessionRef)
    (hWFall : ∀ p ∈ origWs, WFWorkspace p.2)
    (hnodup : (alKeys origWs).Nodup)
    (hWFws2 : WFWorkspace ws2)
    (hfilter : ws2.activeBySessionKey.filter
      (fun p => p.2.sessionKey = k) = [(t, ref)]) :
    ∃ st2, initializeSessionStore
        (PersistedSessionsFileV1.mk upd (alSet origWs w ws2)) w = .ok st2 ∧
      getSession st2 k = some (hydrateSession ref w) := by
  have hWFall2 : ∀ p ∈ alSet origWs w ws2, WFWorkspace p.2 := by
    intro p hp
    rcases alSet_mem _ _ _ _ hp with h | h
    · rw [h]
      exact hWFws2
    · exact hWFall p h
  have hnodup2 : (alKeys (alSet origWs w ws2)).Nodup :=
    alKeys_alSet_nodup _ _ _ hnodup
  obtain ⟨out, hrun, _, hb⟩ :=
    parseWorkspacesList_spec (alSet origWs w ws2) [] hWFall2 hnodup2
  obtain ⟨ws', hw', hact⟩ :=
    hb w ws2 (alLookup_alSet_self _ _ _) rfl
  refine ⟨StoreState.mk
      (ws'.activeBySessionKey.foldl
        (fun m p => alSet m p.2.sessionKey (hydrateSession p.2 w)) [])
      (some ⟨w, PersistedSessionsFileV1.mk upd out⟩), ?_, ?_⟩
  · simp only [initializeSessionStore, parsePersistedSessionsFile, hrun, hw']
  · simp only [getSession]
    rw [hact, hydrateFold_lookup w ws2.activeBySessionKey [] k, hfilter]
    rfl

/-- The workspace group `persistSetSession` writes, given the previous
group for the workspace (empty when the workspace had none). -/
def ws2Of (wsOld : PersistedWorkspaceSessions) (sessionKey : String)
    (session : BotSession) (savedAt : String) : PersistedWorkspaceSessions :=
  let ref := toPersistedSessionRef sessionKey session savedAt
  PersistedWorkspaceSessions.mk
    (alSet (removeActiveSessionBySessionKey
      wsOld.activeBySessionKey sessionKey).1 session.threadId ref)
    (alSet wsOld.historyBySessionKey session.threadId
      ((match alLookup wsOld.historyBySessionKey session.threadId with
        | some h => h
        | none => []) ++ [ref]))

theorem WF_ws2Of (wsOld : PersistedWorkspaceSessions) (k : String)
    (s : BotSession) (savedAt : String) (hWFws : WFWorkspace wsOld)
    (hk : ¬jsTrim k = "") (ht : ¬jsTrim s.threadId = "")
    (hm : ¬jsTrim s.model = "")
    (htitle : normalizeOptionalTitle s.title = s.title) :
    WFWorkspace (ws2Of wsOld k s savedAt) := by
  have hreftitle : normalizeOptionalTitle
      (toPersistedSessionRef k s savedAt).title =
      (toPersistedSessionRef k s savedAt).title := by
    show normalizeOptionalTitle (normalizeOptionalTitle s.title) =
      normalizeOptionalTitle s.title
    rw [htitle]
    exact htitle
  refine ⟨?_, ?_, ?_⟩
  · intro p hp
    rcases alSet_mem _ _ _ _ hp with h | h
    · rw [h]
      exact ⟨⟨ht, hm⟩, hk, hreftitle, rfl⟩
    · have hmem : p ∈ wsOld.activeBySessionKey :=
        List.mem_of_mem_filter h
      exact hWFws.1 p hmem
  · exact alKeys_alSet_nodup _ _ _
      (alKeys_filter_nodup _ _ hWFws.2.1)
  · intro q hq ref href
    rcases alSet_mem _ _ _ _ hq with h | h
    · rw [h] at href
      simp only at href
      rw [List.mem_append] at href
      rcases href with h1 | h1
      · cases hlkh : alLookup wsOld.historyBySessionKey s.threadId with
        | some hist =>
            rw [hlkh] at h1
            exact hWFws.2.2 _ (alLookup_mem _ _ _ hlkh) ref h1
        | none =>
            rw [hlkh] at h1
            cases h1
      · obtain rfl : ref = toPersistedSessionRef k s savedAt := by
          simpa using h1
        exact ⟨ht, hm⟩
    · exact hWFws.2.2 q h ref href

theorem setSession_restart
    (origWs : List (String × PersistedWorkspaceSessions))
    (w k savedAt : String) (s : BotSession)
    (wsOld : PersistedWorkspaceSessions)
    (hWFws : WFWorkspace wsOld)
    (hWFall : ∀ p ∈ origWs, WFWorkspace p.2)
    (hnodup : (alKeys origWs).Nodup)
    (hk : ¬jsTrim k = "") (ht : ¬jsTrim s.threadId = "")
    (hm : ¬jsTrim s.model = "")
    (htitle : normalizeOptionalTitle s.title = s.title) :
    ∃ st2, initializeSessionStore
        (PersistedSessionsFileV1.mk savedAt
          (alSet origWs w (ws2Of wsOld k s savedAt))) w = .ok st2 ∧
      getSession st2 k =
        some (hydrateSession (toPersistedSessionRef k s savedAt) w) := by
  have hnot : ∀ p ∈ (removeActiveSessionBySessionKey
      wsOld.activeBySessionKey k).1, ¬(p.2.sessionKey = k) := by
    intro p hp
    simp only [removeActiveSessionBySessionKey] at hp
    have := List.of_mem_filter hp
    simpa using this
  have hfilter : (ws2Of wsOld k s savedAt).activeBySessionKey.filter
      (fun p => p.2.sessionKey = k) =
      [(s.threadId, toPersistedSessionRef k s savedAt)] :=
    filter_alSet_single
      (fun (p : String × PersistedSessionRef) => p.2.sessionKey = k)
      _ _ _ hnot rfl
  exact C4core origWs w (ws2Of wsOld k s savedAt) savedAt k s.threadId
    (toPersistedSessionRef k s savedAt) hWFall hnodup
    (WF_ws2Of wsOld k s savedAt hWFws hk ht hm htitle) hfilter

/-- A store initialized at workspace `/w` over an empty index. -/
def c4init : StoreState :=
  StoreState.mk [] (some ⟨"/w", PersistedSessionsFileV1.mk "t0" []⟩)

/-- A session whose `cwd` differs from the workspace cwd. -/
def c4sess : BotSession := BotSession.mk "th" "m" ChatMode.default "/other" none

/-- The store and write flag after `setSession("k", c4sess)`. -/
def c4afterSet : StoreState × Bool := setSession c4init "k" c4sess "t1"

/-- The persisted file written by that `setSession`. -/
def c4file : PersistedSessionsFileV1 :=
  match c4afterSet.1.persistence with
  | some ps => ps.data
  | none => PersistedSessionsFileV1.mk "" []

/-- C4 (counterexample): `setSession(k, s)` followed by `getSession(k)`
does return `s`, but after a restart (re-initialization from the written
file at the same workspace cwd `/w`) `getSession(k)` returns a session
whose `cwd` is the workspace cwd `/w`, not the `cwd` the stored session
carried (`/other`) — persisted records carry no cwd, so the claim's
unconditional round-trip equality fails. -/
theorem C4_cex :
    getSession c4afterSet.1 "k" = some c4sess ∧
      (initializeSessionStore c4file "/w").toOption.map
          (fun st2 => getSession st2 "k") =
        some (some (BotSession.mk "th" "m" ChatMode.default "/w" none)) ∧
      ¬BotSession.mk "th" "m" ChatMode.default "/w" none = c4sess := by
  refine ⟨by decide, by decide, by decide⟩

/-- C4 (amended): `setSession(k, s)` immediately followed by
`getSession(k)` returns `s`; and when the store was initialized (its
in-memory index is a well-formed index as the store itself maintains),
`k` trims non-blank, `s.threadId` and `s.model` trim non-blank, `s.cwd`
equals the configured workspace cwd, and `s.title` is already normalized
(absent or trimmed non-blank), then after a restart — re-initializing
from the file `setSession` wrote, at the same workspace cwd —
`getSession(k)` still returns `s`. -/
theorem C4_amended (st : StoreState) (ps : SessionStorePersistenceState)
    (k : String) (s : BotSession) (savedAt : String)
    (hps : st.persistence = some ps)
    (hWF : WFFile ps.data)
    (hk : ¬jsTrim k = "")
    (ht : ¬jsTrim s.threadId = "")
    (hm : ¬jsTrim s.model = "")
    (hcwd : s.cwd = ps.workspaceCwd)
    (htitle : normalizeOptionalTitle s.title = s.title) :
    getSession (setSession st k s savedAt).1 k = some s ∧
      ∃ ps' st2, (setSession st k s savedAt).1.persistence = some ps' ∧
        ps'.workspaceCwd = ps.workspaceCwd ∧
        initializeSessionStore ps'.data ps.workspaceCwd = .ok st2 ∧
        getSession st2 k = some s := by
  have hhyd : hydrateSession (toPersistedSessionRef k s savedAt)
      ps.workspaceCwd = s := by
    have h2 : normalizeOptionalTitle (normalizeOptionalTitle s.title) =
        s.title := by
      rw [htitle]
      exact htitle
    cases s with
    | mk a b c d e =>
        simp only [hydrateSession, toPersistedSessionRef]
        rw [show ps.workspaceCwd = d from hcwd.symm]
        rw [show normalizeOptionalTitle (normalizeOptionalTitle e) = e
          from h2]
  obtain ⟨sstore, spers⟩ := st
  obtain rfl : spers = some ps := hps
  constructor
  · show getSession (persistSetSession
      (StoreState.mk (alSet sstore k s) (some ps)) k s savedAt).1 k = some s
    cases hlk : alLookup ps.data.workspaces ps.workspaceCwd with
    | some wsOld =>
        simp only [persistSetSession, hlk]
        exact alLookup_alSet_self _ _ _
    | none =>
        simp only [persistSetSession, hlk]
        exact alLookup_alSet_self _ _ _
  · cases hlk : alLookup ps.data.workspaces ps.workspaceCwd with
    | some wsOld =>
        have hWFws : WFWorkspace wsOld :=
          hWF.1 (ps.workspaceCwd, wsOld) (alLookup_mem _ _ _ hlk)
        obtain ⟨st2, hinit, hget⟩ := setSession_restart
          ps.data.workspaces ps.workspaceCwd k savedAt s wsOld hWFws
          hWF.1 hWF.2 hk ht hm htitle
        refine ⟨⟨ps.workspaceCwd, PersistedSessionsFileV1.mk savedAt
          (alSet ps.data.workspaces ps.workspaceCwd
            (ws2Of wsOld k s savedAt))⟩, st2, ?_, rfl, hinit, ?_⟩
        · simp only [setSession, persistSetSession, hlk, ws2Of,
            toPersistedSessionRef]
        · rw [hget, hhyd]
    | none =>
        have hWFws : WFWorkspace (PersistedWorkspaceSessions.mk [] []) := by
          refine ⟨?_, ?_, ?_⟩ <;> simp [alKeys]
        obtain ⟨st2, hinit, hget⟩ := setSession_restart
          ps.data.workspaces ps.workspaceCwd k savedAt s
          (PersistedWorkspaceSessions.mk [] []) hWFws
          hWF.1 hWF.2 hk ht hm htitle
        refine ⟨⟨ps.workspaceCwd, PersistedSessionsFileV1.mk savedAt
          (alSet ps.data.workspaces ps.workspaceCwd
            (ws2Of (PersistedWorkspaceSessions.mk [] []) k s savedAt))⟩,
          st2, ?_, rfl, hinit, ?_⟩
        · simp only [setSession, persistSetSession, hlk, ws2Of,
            toPersistedSessionRef]
        · rw [hget, hhyd]

/-- C4 amended witness: a concrete round trip through the written file at
workspace `/w`. -/
theorem C4_witness :
    getSession (setSession c4init "k"
      (BotSession.mk "th" "m" ChatMode.default "/w" none) "t1").1 "k" =
        some (BotSession.mk "th" "m" ChatMode.default "/w" none) ∧
      ∃ ps' st2, (setSession c4init "k"
          (BotSession.mk "th" "m" ChatMode.default "/w" none) "t1").1.persistence =
            some ps' ∧
        ps'.workspaceCwd = "/w" ∧
        initializeSessionStore ps'.data "/w" = .ok st2 ∧
        getSession st2 "k" =
          some (BotSession.mk "th" "m" ChatMode.default "/w" none) := by
  exact C4_amended c4init ⟨"/w", PersistedSessionsFileV1.mk "t0" []⟩ "k"
    (BotSession.mk "th" "m" ChatMode.default "/w" none) "t1" rfl
    (by refine ⟨?_, ?_⟩ <;> simp [alKeys]) (by decide) (by decide)
    (by decide) rfl (by decide)

/-! ## Per-key session lock (`withSessionLock`, `src/session/store.ts`
lines 26-49)

`withSessionLock` serializes calls per key by promise chaining.  The
embedding is a small-step semantics over the promise graph the code
builds.  A call to `withSessionLock(key, run)` executes, synchronously:
`previous = sessionQueue.get(key) ?? Promise.resolve()`, `running =
previous.then(run, run)`, `queueItem = running.then(u, u)`, and
`sessionQueue.set(key, queueItem)` (the `invoke` event).  A call then
moves through four phases: `waiting` (created, `run` not yet invoked),
`started` (`previous` settled, so the `.then` reaction invoked `run`),
`completed` (the promise `run()` returned has settled — the function
fully returned or threw; the timing is the environment's choice), and
`chained` (`running` settled and `queueItem`'s reaction fired, settling
`queueItem`).  The `finally` deletes the queue entry when it still points
at this call's `queueItem` (the `release` event).  The scheduler is
nondeterministic except for the promise-dataflow guards, which is what
the JS event loop guarantees:
- `start i` requires the call's `previous` settled: its `prev` pointer is
  `none` (`previous` was the already-resolved promise) or names a call
  whose `queueItem` settled (`chained`) — both the fulfilment and the
  rejection handler of `previous.then(run, run)` invoke `run`, so a prior
  failure also unblocks the next call;
- `complete i` requires `started`;
- `chain i` requires `completed` (`queueItem = running.then(u, u)`
  settles one microtask after `running`, which adopts `run()`'s result);
- `release i` requires the call to be `chained` and still the registered
  tail (the `finally` runs only after `await running` resumes, which is
  after `queueItem` settled, its reaction having been registered
  first). -/

/-- The lifecycle phase of one `withSessionLock` call. -/
inductive LockPhase where
  | waiting
  | started
  | completed
  | chained
deriving DecidableEq, Repr

/-- Numeric phase order (phases only ever advance). -/
def phaseIdx : LockPhase → Nat
  | .waiting => 0
  | .started => 1
  | .completed => 2
  | .chained => 3

/-- One `withSessionLock` call: its key, phase, and the call its
`previous` promise belongs to (`none` when `sessionQueue` had no entry
for the key at invocation time). -/
structure LockCall where
  key : String
  phase : LockPhase
  prev : Option Nat
deriving DecidableEq, Repr

/-- Global lock state: all calls in invocation order (the call id is the
list index) plus the `sessionQueue` map from key to the id of the tail
call. -/
structure LockState where
  calls : List LockCall
  tails : List (String × Nat)
deriving DecidableEq, Repr

def initLockState : LockState := ⟨[], []⟩

/-- Scheduler events. -/
inductive LockEvent where
  | invoke (key : String)
  | start (i : Nat)
  | complete (i : Nat)
  | chain (i : Nat)
  | release (i : Nat)
deriving DecidableEq, Repr

/-- The `previous` promise of a call is settled: no previous, or the
previous call's `queueItem` settled. -/
def prevDone (s : LockState) : Option Nat → Bool
  | none => true
  | some p =>
      match s.calls[p]? with
      | some cp => cp.phase = .chained
      | none => false

/-- One scheduler step; `none` when the event is not enabled. -/
def lockStep (s : LockState) : LockEvent → Option LockState
  | .invoke k =>
      some ⟨s.calls ++ [⟨k, .waiting, alLookup s.tails k⟩],
        alSet s.tails k s.calls.length⟩
  | .start i =>
      match s.calls[i]? with
      | none => none
      | some c =>
          if c.phase = .waiting ∧ prevDone s c.prev = true then
            some ⟨s.calls.set i ⟨c.key, .started, c.prev⟩, s.tails⟩
          else none
  | .complete i =>
      match s.calls[i]? with
      | none => none
      | some c =>
          if c.phase = .started then
            some ⟨s.calls.set i ⟨c.key, .completed, c.prev⟩, s.tails⟩
          else none
  | .chain i =>
      match s.calls[i]? with
      | none => none
      | some c =>
          if c.phase = .completed then
            some ⟨s.calls.set i ⟨c.key, .chained, c.prev⟩, s.tails⟩
          else none
  | .release i =>
      match s.calls[i]? with
      | none => none
      | some c =>
          if c.phase = .chained ∧ alLookup s.tails c.key = some i then
            some ⟨s.calls, alRemove s.tails c.key⟩
          else none

/-- Run a list of scheduler events. -/
def lockRun (s : LockState) : List LockEvent → Option LockState
  | [] => some s
  | e :: t =>
      match lockStep s e with
      | some s' => lockRun s' t
      | none => none

/-- The key of call `j`. -/
def keyAt (s : LockState) (j : Nat) : Option String :=
  (s.calls[j]?).map LockCall.key

/-- The phase of call `j`. -/
def phaseAt (s : LockState) (j : Nat) : Option LockPhase :=
  (s.calls[j]?).map LockCall.phase

/-- The `prev` pointer of call `j`. -/
def prevAt (s : LockState) (j : Nat) : Option (Option Nat) :=
  (s.calls[j]?).map LockCall.prev

/-- The reachability invariant of the lock semantics. -/
def LockInv (s : LockState) : Prop :=
  (∀ j p, prevAt s j = some (some p) →
    p < j ∧ keyAt s p = keyAt s j ∧
      (∀ i, p < i → i < j → keyAt s i ≠ keyAt s j)) ∧
    (∀ j, prevAt s j = some none →
      ∀ i, i < j → keyAt s i = keyAt s j → phaseAt s i = some .chained) ∧
    (∀ j ph, phaseAt s j = some ph → ¬ph = .waiting →
      ∀ i, i < j → keyAt s i = keyAt s j → phaseAt s i = some .chained) ∧
    (∀ k, alLookup s.tails k = none →
      ∀ i, keyAt s i = some k → phaseAt s i = some .chained) ∧
    (∀ k t, alLookup s.tails k = some t →
      keyAt s t = some k ∧ ∀ i, t < i → keyAt s i ≠ some k)

theorem getElem?_some_lt {α : Type} (l : List α) (i : Nat) (c : α)
    (h : l[i]? = some c) : i < l.length := by
  by_cases hl : i < l.length
  · exact hl
  · rw [List.getElem?_eq_none (Nat.le_of_not_lt hl)] at h
    cases h

theorem getElem?_append_lt {α : Type} (l : List α) (x : α) (j : Nat)
    (h : j < l.length) : (l ++ [x])[j]? = l[j]? := by
  rw [List.getElem?_append]
  simp [h]

theorem getElem?_append_gt {α : Type} (l : List α) (x : α) (j : Nat)
    (h : l.length < j) : (l ++ [x])[j]? = none := by
  rw [List.getElem?_append, if_neg (by omega)]
  exact List.getElem?_eq_none (by simp; omega)

theorem alLookup_alRemove_self {α : Type} (l : List (String × α))
    (k : String) : alLookup (alRemove l k) k = none := by
  induction l with
  | nil => rfl
  | cons a t ih =>
      by_cases h : a.1 = k
      · simp only [alRemove, List.filter_cons]
        rw [if_neg (by simpa using h)]
        exact ih
      · simp only [alRemove, List.filter_cons]
        rw [if_pos (by simpa using h), alLookup_cons, if_neg h]
        exact ih

theorem alLookup_alRemove_ne {α : Type} (l : List (String × α))
    (k k' : String) (h : ¬k' = k) :
    alLookup (alRemove l k) k' = alLookup l k' := by
  induction l with
  | nil => rfl
  | cons a t ih =>
      by_cases ha : a.1 = k
      · simp only [alRemove, List.filter_cons]
        rw [if_neg (by simpa using ha)]
        rw [alLookup_cons, if_neg (by rw [ha]; exact fun he => h he.symm)]
        exact ih
      · simp only [alRemove, List.filter_cons]
        rw [if_pos (by simpa using ha), alLookup_cons, alLookup_cons]
        by_cases hk : a.1 = k'
        · rw [if_pos hk, if_pos hk]
        · rw [if_neg hk, if_neg hk]
          exact ih

/-- Accessor transfers for a phase update at index `i`. -/
theorem set_keyAt (s : LockState) (i : Nat) (c : LockCall) (ph : LockPhase)
    (hc : s.calls[i]? = some c) (j : Nat) :
    keyAt ⟨s.calls.set i ⟨c.key, ph, c.prev⟩, s.tails⟩ j = keyAt s j := by
  by_cases hj : j = i
  · subst hj
    show ((s.calls.set j ⟨c.key, ph, c.prev⟩)[j]?).map LockCall.key =
      (s.calls[j]?).map LockCall.key
    rw [List.getElem?_set_eq_of_lt _ (getElem?_some_lt _ _ _ hc), hc]
    rfl
  · show ((s.calls.set i ⟨c.key, ph, c.prev⟩)[j]?).map LockCall.key =
      (s.calls[j]?).map LockCall.key
    rw [List.getElem?_set_ne (Ne.symm hj)]

theorem set_prevAt (s : LockState) (i : Nat) (c : LockCall) (ph : LockPhase)
    (hc : s.calls[i]? = some c) (j : Nat) :
    prevAt ⟨s.calls.set i ⟨c.key, ph, c.prev⟩, s.tails⟩ j = prevAt s j := by
  by_cases hj : j = i
  · subst hj
    show ((s.calls.set j ⟨c.key, ph, c.prev⟩)[j]?).map LockCall.prev =
      (s.calls[j]?).map LockCall.prev
    rw [List.getElem?_set_eq_of_lt _ (getElem?_some_lt _ _ _ hc), hc]
    rfl
  · show ((s.calls.set i ⟨c.key, ph, c.prev⟩)[j]?).map LockCall.prev =
      (s.calls[j]?).map LockCall.prev
    rw [List.getElem?_set_ne (Ne.symm hj)]

theorem set_phaseAt_self (s : LockState) (i : Nat) (c : LockCall)
    (ph : LockPhase) (hc : s.calls[i]? = some c) :
    phaseAt ⟨s.calls.set i ⟨c.key, ph, c.prev⟩, s.tails⟩ i = some ph := by
  show ((s.calls.set i ⟨c.key, ph, c.prev⟩)[i]?).map LockCall.phase = some ph
  rw [List.getElem?_set_eq_of_lt _ (getElem?_some_lt _ _ _ hc)]
  rfl

theorem set_phaseAt_ne (s : LockState) (i : Nat) (c : LockCall)
    (ph : LockPhase) (j : Nat) (hj : ¬j = i) :
    phaseAt ⟨s.calls.set i ⟨c.key, ph, c.prev⟩, s.tails⟩ j = phaseAt s j := by
  show ((s.calls.set i ⟨c.key, ph, c.prev⟩)[j]?).map LockCall.phase =
    (s.calls[j]?).map LockCall.phase
  rw [List.getElem?_set_ne (Ne.symm hj)]

/-- Invariant preservation: `invoke`. -/
theorem inv_invoke (s : LockState) (k : String) (hInv : LockInv s) :
    LockInv ⟨s.calls ++ [⟨k, .waiting, alLookup s.tails k⟩],
      alSet s.tails k s.calls.length⟩ := by
  obtain ⟨ha, hb, hc, hd, he⟩ := hInv
  set n := s.calls.length with hn
  set newCall : LockCall := ⟨k, .waiting, alLookup s.tails k⟩ with hnew
  set s' : LockState := ⟨s.calls ++ [newCall], alSet s.tails k n⟩ with hs'
  have hkey_lt : ∀ j, j < n → keyAt s' j = keyAt s j := by
    intro j hj
    show ((s.calls ++ [newCall])[j]?).map LockCall.key = _
    rw [getElem?_append_lt _ _ _ hj]
    rfl
  have hphase_lt : ∀ j, j < n → phaseAt s' j = phaseAt s j := by
    intro j hj
    show ((s.calls ++ [newCall])[j]?).map LockCall.phase = _
    rw [getElem?_append_lt _ _ _ hj]
    rfl
  have hprev_lt : ∀ j, j < n → prevAt s' j = prevAt s j := by
    intro j hj
    show ((s.calls ++ [newCall])[j]?).map LockCall.prev = _
    rw [getElem?_append_lt _ _ _ hj]
    rfl
  have hkey_n : keyAt s' n = some k := by
    show ((s.calls ++ [newCall])[n]?).map LockCall.key = some k
    rw [List.getElem?_concat_length]
    rfl
  have hphase_n : phaseAt s' n = some .waiting := by
    show ((s.calls ++ [newCall])[n]?).map LockCall.phase = some .waiting
    rw [List.getElem?_concat_length]
    rfl
  have hprev_n : prevAt s' n = some (alLookup s.tails k) := by
    show ((s.calls ++ [newCall])[n]?).map LockCall.prev = _
    rw [List.getElem?_concat_length]
    rfl
  have hkey_gt : ∀ j, n < j → keyAt s' j = none := by
    intro j hj
    show ((s.calls ++ [newCall])[j]?).map LockCall.key = none
    rw [getElem?_append_gt _ _ _ hj]
    rfl
  have hphase_gt : ∀ j, n < j → phaseAt s' j = none := by
    intro j hj
    show ((s.calls ++ [newCall])[j]?).map LockCall.phase = none
    rw [getElem?_append_gt _ _ _ hj]
    rfl
  have hprev_gt : ∀ j, n < j → prevAt s' j = none := by
    intro j hj
    show ((s.calls ++ [newCall])[j]?).map LockCall.prev = none
    rw [getElem?_append_gt _ _ _ hj]
    rfl
  have hkey_dom : ∀ j x, keyAt s j = some x → j < n := by
    intro j x hx
    obtain ⟨cj, hcj, _⟩ := Option.map_eq_some'.mp hx
    exact getElem?_some_lt _ _ _ hcj
  refine ⟨?_, ?_, ?_, ?_, ?_⟩
  · -- (a) prev links
    intro j p hjp
    rcases Nat.lt_trichotomy j n with hj | hj | hj
    · rw [hprev_lt j hj] at hjp
      obtain ⟨h1, h2, h3⟩ := ha j p hjp
      refine ⟨h1, ?_, ?_⟩
      · rw [hkey_lt p (h1.trans hj), hkey_lt j hj, h2]
      · intro i hpi hij
        rw [hkey_lt i (hij.trans hj), hkey_lt j hj]
        exact h3 i hpi hij
    · subst hj
      rw [hprev_n] at hjp
      have htl : alLookup s.tails k = some p := by
        simpa using hjp
      obtain ⟨hkp, hgt⟩ := he k p htl
      have hpn : p < n := hkey_dom p k hkp
      refine ⟨hpn, ?_, ?_⟩
      · rw [hkey_lt p hpn, hkey_n, hkp]
      · intro i hpi hij
        rw [hkey_lt i hij, hkey_n]
        intro hik
        exact hgt i hpi (hik ▸ rfl)
    · rw [hprev_gt j hj] at hjp
      cases hjp
  · -- (b) fresh chains
    intro j hjp i hij hkeq
    rcases Nat.lt_trichotomy j n with hj | hj | hj
    · rw [hprev_lt j hj] at hjp
      rw [hkey_lt i (hij.trans hj), hkey_lt j hj] at hkeq
      rw [hphase_lt i (hij.trans hj)]
      exact hb j hjp i hij hkeq
    · subst hj
      rw [hprev_n] at hjp
      have htl : alLookup s.tails k = none := by
        simpa using hjp
      rw [hkey_lt i hij, hkey_n] at hkeq
      rw [hphase_lt i hij]
      exact hd k htl i hkeq
    · rw [hprev_gt j hj] at hjp
      cases hjp
  · -- (c) started calls
    intro j ph hjp hphw i hij hkeq
    rcases Nat.lt_trichotomy j n with hj | hj | hj
    · rw [hphase_lt j hj] at hjp
      rw [hkey_lt i (hij.trans hj), hkey_lt j hj] at hkeq
      rw [hphase_lt i (hij.trans hj)]
      exact hc j ph hjp hphw i hij hkeq
    · subst hj
      rw [hphase_n] at hjp
      have hw : LockPhase.waiting = ph := by
        simpa using hjp
      exact absurd hw.symm hphw
    · rw [hphase_gt j hj] at hjp
      cases hjp
  · -- (d) keys with no tail
    intro k' htl i hik
    by_cases hkk : k' = k
    · subst hkk
      rw [alLookup_alSet_self] at htl
      cases htl
    · rw [alLookup_alSet_ne _ _ _ _ hkk] at htl
      rcases Nat.lt_trichotomy i n with hi | hi | hi
      · rw [hkey_lt i hi] at hik
        rw [hphase_lt i hi]
        exact hd k' htl i hik
      · subst hi
        rw [hkey_n] at hik
        have hkeq : k = k' := by
          simpa using hik
        exact absurd hkeq.symm hkk
      · rw [hkey_gt i hi] at hik
        cases hik
  · -- (e) tails point at last same-key calls
    intro k' t htl
    by_cases hkk : k' = k
    · subst hkk
      rw [alLookup_alSet_self] at htl
      obtain rfl : n = t := by simpa using htl
      refine ⟨hkey_n, ?_⟩
      intro i hni
      rw [hkey_gt i hni]
      intro h
      cases h
    · rw [alLookup_alSet_ne _ _ _ _ hkk] at htl
      obtain ⟨hkt, hgt⟩ := he k' t htl
      have htn : t < n := hkey_dom t k' hkt
      refine ⟨?_, ?_⟩
      · rw [hkey_lt t htn, hkt]
      · intro i hti
        rcases Nat.lt_trichotomy i n with hi | hi | hi
        · rw [hkey_lt i hi]
          exact hgt i hti
        · subst hi
          rw [hkey_n]
          intro h
          have hkeq : k = k' := by
            simpa using h
          exact hkk hkeq.symm
        · rw [hkey_gt i hi]
          intro h
          cases h

/-- When a call's `previous` promise has settled, every earlier same-key
call is fully chained. -/
theorem prev_guard_chained (s : LockState) (j : Nat) (cj : LockCall)
    (hInv : LockInv s) (hcj : s.calls[j]? = some cj)
    (hprev : prevDone s cj.prev = true) :
    ∀ i, i < j → keyAt s i = keyAt s j → phaseAt s i = some .chained := by
  obtain ⟨ha, hb, hc, hd, he⟩ := hInv
  intro i hij hkeq
  cases hp : cj.prev with
  | none =>
      have hpa : prevAt s j = some none := by
        simp [prevAt, hcj, hp]
      exact hb j hpa i hij hkeq
  | some p =>
      rw [hp] at hprev
      have hpa : prevAt s j = some (some p) := by
        simp [prevAt, hcj, hp]
      obtain ⟨hpj, hkeyeq, hbetween⟩ := ha j p hpa
      cases hcp : s.calls[p]? with
      | none =>
          rw [prevDone, hcp] at hprev
          cases hprev
      | some cp =>
          rw [prevDone, hcp] at hprev
          have hcpch : cp.phase = .chained := by
            simpa using hprev
          rcases Nat.lt_trichotomy i p with hip | hip | hip
          · have hphp : phaseAt s p = some cp.phase := by
              simp [phaseAt, hcp]
            have hki : keyAt s i = keyAt s p := by
              rw [hkeq, ← hkeyeq]
            refine hc p cp.phase hphp ?_ i hip hki
            rw [hcpch]
            intro hx
            cases hx
          · subst hip
            simp [phaseAt, hcp, hcpch]
          · exact absurd hkeq (hbetween i hip hij)

/-- Invariant preservation: `start`. -/
theorem inv_start (s : LockState) (i : Nat) (c : LockCall)
    (hInv : LockInv s) (hc : s.calls[i]? = some c)
    (hw : c.phase = .waiting) (hp : prevDone s c.prev = true) :
    LockInv ⟨s.calls.set i ⟨c.key, .started, c.prev⟩, s.tails⟩ := by
  have hall := prev_guard_chained s i c hInv hc hp
  obtain ⟨ha, hb, hc', hd, he⟩ := hInv
  have hkeyE := set_keyAt s i c .started hc
  have hprevE := set_prevAt s i c .started hc
  have hphaseNe := fun j hj => set_phaseAt_ne s i c .started j hj
  have hphase_s_i : phaseAt s i = some .waiting := by
    simp [phaseAt, hc, hw]
  have htrans : ∀ x, phaseAt s x = some .chained →
      phaseAt ⟨s.calls.set i ⟨c.key, .started, c.prev⟩, s.tails⟩ x =
        some .chained := by
    intro x hx
    by_cases hxi : x = i
    · subst hxi
      rw [hphase_s_i] at hx
      cases hx
    · rw [hphaseNe x hxi]
      exact hx
  refine ⟨?_, ?_, ?_, ?_, ?_⟩
  · intro j p hjp
    rw [hprevE] at hjp
    obtain ⟨h1, h2, h3⟩ := ha j p hjp
    refine ⟨h1, by rw [hkeyE, hkeyE]; exact h2, ?_⟩
    intro x hx1 hx2
    rw [hkeyE, hkeyE]
    exact h3 x hx1 hx2
  · intro j hjp x hxj hkeq
    rw [hprevE] at hjp
    rw [hkeyE, hkeyE] at hkeq
    exact htrans x (hb j hjp x hxj hkeq)
  · intro j ph hjph hphw x hxj hkeq
    rw [hkeyE, hkeyE] at hkeq
    by_cases hji : j = i
    · subst hji
      exact htrans x (hall x hxj hkeq)
    · rw [hphaseNe j hji] at hjph
      exact htrans x (hc' j ph hjph hphw x hxj hkeq)
  · intro k htl x hkx
    rw [hkeyE] at hkx
    exact htrans x (hd k htl x hkx)
  · intro k t htl
    obtain ⟨h1, h2⟩ := he k t htl
    refine ⟨by rw [hkeyE]; exact h1, ?_⟩
    intro x hx
    rw [hkeyE]
    exact h2 x hx

/-- Invariant preservation: a phase advance out of a non-waiting,
non-chained phase (`complete`: started → completed; `chain`:
completed → chained). -/
theorem inv_advance (s : LockState) (i : Nat) (c : LockCall)
    (newPh : LockPhase) (hInv : LockInv s) (hc : s.calls[i]? = some c)
    (holdw : ¬c.phase = .waiting) (hnotch : ¬c.phase = .chained) :
    LockInv ⟨s.calls.set i ⟨c.key, newPh, c.prev⟩, s.tails⟩ := by
  obtain ⟨ha, hb, hc', hd, he⟩ := hInv
  have hkeyE := set_keyAt s i c newPh hc
  have hprevE := set_prevAt s i c newPh hc
  have hphaseNe := fun j hj => set_phaseAt_ne s i c newPh j hj
  have hphase_s_i : phaseAt s i = some c.phase := by
    simp [phaseAt, hc]
  have htrans : ∀ x, phaseAt s x = some .chained →
      phaseAt ⟨s.calls.set i ⟨c.key, newPh, c.prev⟩, s.tails⟩ x =
        some .chained := by
    intro x hx
    by_cases hxi : x = i
    · subst hxi
      rw [hphase_s_i] at hx
      exact absurd (by simpa using hx) hnotch
    · rw [hphaseNe x hxi]
      exact hx
  refine ⟨?_, ?_, ?_, ?_, ?_⟩
  · intro j p hjp
    rw [hprevE] at hjp
    obtain ⟨h1, h2, h3⟩ := ha j p hjp
    refine ⟨h1, by rw [hkeyE, hkeyE]; exact h2, ?_⟩
    intro x hx1 hx2
    rw [hkeyE, hkeyE]
    exact h3 x hx1 hx2
  · intro j hjp x hxj hkeq
    rw [hprevE] at hjp
    rw [hkeyE, hkeyE] at hkeq
    exact htrans x (hb j hjp x hxj hkeq)
  · intro j ph hjph hphw x hxj hkeq
    rw [hkeyE, hkeyE] at hkeq
    by_cases hji : j = i
    · exact htrans x (hc' j c.phase (by rw [hji]; exact hphase_s_i) holdw
        x hxj hkeq)
    · rw [hphaseNe j hji] at hjph
      exact htrans x (hc' j ph hjph hphw x hxj hkeq)
  · intro k htl x hkx
    rw [hkeyE] at hkx
    exact htrans x (hd k htl x hkx)
  · intro k t htl
    obtain ⟨h1, h2⟩ := he k t htl
    refine ⟨by rw [hkeyE]; exact h1, ?_⟩
    intro x hx
    rw [hkeyE]
    exact h2 x hx

/-- Invariant preservation: `release`. -/
theorem inv_release (s : LockState) (i : Nat) (c : LockCall)
    (hInv : LockInv s) (hc : s.calls[i]? = some c)
    (hph : c.phase = .chained) (htl : alLookup s.tails c.key = some i) :
    LockInv ⟨s.calls, alRemove s.tails c.key⟩ := by
  obtain ⟨ha, hb, hc', hd, he⟩ := hInv
  refine ⟨ha, hb, hc', ?_, ?_⟩
  · intro k htl' x hkx
    by_cases hkk : k = c.key
    · subst hkk
      have hkx' : keyAt s x = some c.key := hkx
      obtain ⟨hkt, hgt⟩ := he c.key i htl
      rcases Nat.lt_trichotomy x i with h1 | h1 | h1
      · refine hc' i .chained (by simp [phaseAt, hc, hph]) (by intro hx; cases hx)
          x h1 ?_
        rw [hkx', hkt]
      · subst h1
        show phaseAt s x = some LockPhase.chained
        simp [phaseAt, hc, hph]
      · exact absurd hkx' (hgt x h1)
    · rw [alLookup_alRemove_ne _ _ _ hkk] at htl'
      exact hd k htl' x hkx
  · intro k t htl'
    by_cases hkk : k = c.key
    · subst hkk
      rw [alLookup_alRemove_self] at htl'
      cases htl'
    · rw [alLookup_alRemove_ne _ _ _ hkk] at htl'
      exact he k t htl'

/-- Invariant preservation: any step. -/
theorem lockStep_inv (s s₁ : LockState) (e : LockEvent)
    (hInv : LockInv s) (h : lockStep s e = some s₁) : LockInv s₁ := by
  cases e with
  | invoke k =>
      have heq : (⟨s.calls ++ [⟨k, .waiting, alLookup s.tails k⟩],
          alSet s.tails k s.calls.length⟩ : LockState) = s₁ := by
        simpa [lockStep] using h
      rw [← heq]
      exact inv_invoke s k hInv
  | start i =>
      simp only [lockStep] at h
      cases hc : s.calls[i]? with
      | none => rw [hc] at h; cases h
      | some c =>
          simp only [hc] at h
          by_cases hg : c.phase = .waiting ∧ prevDone s c.prev = true
          · rw [if_pos hg] at h
            have heq := Option.some.inj h
            rw [← heq]
            exact inv_start s i c hInv hc hg.1 hg.2
          · rw [if_neg hg] at h
            cases h
  | complete i =>
      simp only [lockStep] at h
      cases hc : s.calls[i]? with
      | none => rw [hc] at h; cases h
      | some c =>
          simp only [hc] at h
          by_cases hg : c.phase = .started
          · rw [if_pos hg] at h
            have heq := Option.some.inj h
            rw [← heq]
            refine inv_advance s i c .completed hInv hc ?_ ?_ <;>
              rw [hg] <;> intro hx <;> cases hx
          · rw [if_neg hg] at h
            cases h
  | chain i =>
      simp only [lockStep] at h
      cases hc : s.calls[i]? with
      | none => rw [hc] at h; cases h
      | some c =>
          simp only [hc] at h
          by_cases hg : c.phase = .completed
          · rw [if_pos hg] at h
            have heq := Option.some.inj h
            rw [← heq]
            refine inv_advance s i c .chained hInv hc ?_ ?_ <;>
              rw [hg] <;> intro hx <;> cases hx
          · rw [if_neg hg] at h
            cases h
  | release i =>
      simp only [lockStep] at h
      cases hc : s.calls[i]? with
      | none => rw [hc] at h; cases h
      | some c =>
          simp only [hc] at h
          by_cases hg : c.phase = .chained ∧ alLookup s.tails c.key = some i
          · rw [if_pos hg] at h
            have heq := Option.some.inj h
            rw [← heq]
            exact inv_release s i c hInv hc hg.1 hg.2
          · rw [if_neg hg] at h
            cases h

theorem lockRun_inv (t : List LockEvent) :
    ∀ s s' : LockState, LockInv s → lockRun s t = some s' → LockInv s' := by
  induction t with
  | nil =>
      intro s s' h hrun
      obtain rfl : s = s' := Option.some.inj hrun
      exact h
  | cons e t' ih =>
      intro s s' h hrun
      simp only [lockRun] at hrun
      cases hstep : lockStep s e with
      | none => rw [hstep] at hrun; cases hrun
      | some s₁ =>
          rw [hstep] at hrun
          exact ih s₁ s' (lockStep_inv s s₁ e h hstep) hrun

theorem lockInv_init : LockInv initLockState := by
  refine ⟨?_, ?_, ?_, ?_, ?_⟩
  · intro j p h
    simp [prevAt, initLockState] at h
  · intro j h
    simp [prevAt, initLockState] at h
  · intro j ph h
    simp [phaseAt, initLockState] at h
  · intro k h i hk
    simp [keyAt, initLockState] at hk
  · intro k t h
    simp [initLockState, alLookup] at h

/-- A call whose phase reached `completed` (or beyond) at the end of a
run either started that high or had its `complete` event in the run. -/
theorem phase_ge2_complete_mem :
    ∀ (t : List LockEvent) (s s' : LockState) (i : Nat) (ph : LockPhase),
      lockRun s t = some s' → phaseAt s' i = some ph → 2 ≤ phaseIdx ph →
      (∃ ph₀, phaseAt s i = some ph₀ ∧ 2 ≤ phaseIdx ph₀) ∨
        LockEvent.complete i ∈ t := by
  intro t
  induction t with
  | nil =>
      intro s s' i ph hrun hph h2
      obtain rfl : s = s' := Option.some.inj hrun
      exact Or.inl ⟨ph, hph, h2⟩
  | cons e t' ih =>
      intro s s' i ph hrun hph h2
      simp only [lockRun] at hrun
      cases hstep : lockStep s e with
      | none => rw [hstep] at hrun; cases hrun
      | some s₁ =>
          rw [hstep] at hrun
          rcases ih s₁ s' i ph hrun hph h2 with ⟨ph₁, hph₁, h2₁⟩ | hmem
          · cases e with
            | invoke k =>
                have heq : (⟨s.calls ++ [⟨k, .waiting, alLookup s.tails k⟩],
                    alSet s.tails k s.calls.length⟩ : LockState) = s₁ := by
                  simpa [lockStep] using hstep
                rcases Nat.lt_trichotomy i s.calls.length with hi | hi | hi
                · have htr : phaseAt s₁ i = phaseAt s i := by
                    rw [← heq]
                    show ((s.calls ++ [_])[i]?).map LockCall.phase = _
                    rw [getElem?_append_lt _ _ _ hi]
                    rfl
                  rw [htr] at hph₁
                  exact Or.inl ⟨ph₁, hph₁, h2₁⟩
                · have htr : phaseAt s₁ i = some .waiting := by
                    rw [← heq]
                    show ((s.calls ++ [_])[i]?).map LockCall.phase = _
                    rw [hi, List.getElem?_concat_length]
                    rfl
                  rw [htr] at hph₁
                  obtain rfl : LockPhase.waiting = ph₁ :=
                    Option.some.inj hph₁
                  exact absurd h2₁ (by decide)
                · have htr : phaseAt s₁ i = none := by
                    rw [← heq]
                    show ((s.calls ++ [_])[i]?).map LockCall.phase = none
                    rw [getElem?_append_gt _ _ _ hi]
                    rfl
                  rw [htr] at hph₁
                  cases hph₁
            | start j =>
                simp only [lockStep] at hstep
                cases hcj : s.calls[j]? with
                | none => rw [hcj] at hstep; cases hstep
                | some c =>
                    simp only [hcj] at hstep
                    by_cases hg : c.phase = .waiting ∧
                        prevDone s c.prev = true
                    · rw [if_pos hg] at hstep
                      have heq := Option.some.inj hstep
                      by_cases hij : i = j
                      · subst hij
                        rw [← heq, set_phaseAt_self s i c .started hcj]
                          at hph₁
                        obtain rfl : LockPhase.started = ph₁ :=
                          Option.some.inj hph₁
                        exact absurd h2₁ (by decide)
                      · rw [← heq, set_phaseAt_ne s j c .started i hij]
                          at hph₁
                        exact Or.inl ⟨ph₁, hph₁, h2₁⟩
                    · rw [if_neg hg] at hstep
                      cases hstep
            | complete j =>
                by_cases hij : i = j
                · exact Or.inr (hij ▸ List.mem_cons_self _ _)
                · simp only [lockStep] at hstep
                  cases hcj : s.calls[j]? with
                  | none => rw [hcj] at hstep; cases hstep
                  | some c =>
                      simp only [hcj] at hstep
                      by_cases hg : c.phase = .started
                      · rw [if_pos hg] at hstep
                        have heq := Option.some.inj hstep
                        rw [← heq, set_phaseAt_ne s j c .completed i hij]
                          at hph₁
                        exact Or.inl ⟨ph₁, hph₁, h2₁⟩
                      · rw [if_neg hg] at hstep
                        cases hstep
            | chain j =>
                simp only [lockStep] at hstep
                cases hcj : s.calls[j]? with
                | none => rw [hcj] at hstep; cases hstep
                | some c =>
                    simp only [hcj] at hstep
                    by_cases hg : c.phase = .completed
                    · rw [if_pos hg] at hstep
                      have heq := Option.some.inj hstep
                      by_cases hij : i = j
                      · subst hij
                        refine Or.inl ⟨.completed, ?_, by decide⟩
                        simp [phaseAt, hcj, hg]
                      · rw [← heq, set_phaseAt_ne s j c .chained i hij]
                          at hph₁
                        exact Or.inl ⟨ph₁, hph₁, h2₁⟩
                    · rw [if_neg hg] at hstep
                      cases hstep
            | release j =>
                simp only [lockStep] at hstep
                cases hcj : s.calls[j]? with
                | none => rw [hcj] at hstep; cases hstep
                | some c =>
                    simp only [hcj] at hstep
                    by_cases hg : c.phase = .chained ∧
                        alLookup s.tails c.key = some j
                    · rw [if_pos hg] at hstep
                      have heq := Option.some.inj hstep
                      have htr : phaseAt s i = some ph₁ := by
                        rw [← heq] at hph₁
                        exact hph₁
                      exact Or.inl ⟨ph₁, htr, h2₁⟩
                    · rw [if_neg hg] at hstep
                      cases hstep
          · exact Or.inr (List.mem_cons_of_mem e hmem)

/-- When a `start j` step is enabled, every earlier same-key call is
chained. -/
theorem start_step_chained (s : LockState) (j : Nat) (s₂ : LockState)
    (hInv : LockInv s) (hstep : lockStep s (.start j) = some s₂) :
    ∀ i, i < j → keyAt s i = keyAt s j → phaseAt s i = some .chained := by
  simp only [lockStep] at hstep
  cases hcj : s.calls[j]? with
  | none => rw [hcj] at hstep; cases hstep
  | some cj =>
      simp only [hcj] at hstep
      by_cases hg : cj.phase = .waiting ∧ prevDone s cj.prev = true
      · exact prev_guard_chained s j cj hInv hcj hg.2
      · rw [if_neg hg] at hstep
        cases hstep

/-- C1: per-key serialization.  First conjunct: in every schedule that
the promise semantics admits, whenever call `j`'s function is about to
start (`start j` fires next) every earlier call `i` on the same key has
already fully completed — its `complete` event lies in the schedule
prefix; this holds whether call `i` succeeded or failed, since both
handlers of `previous.then(run, run)` chain the next call.  Second
conjunct: calls under distinct keys are not ordered — a schedule in which
the later key-`b` call starts and completes while the earlier key-`a`
call is still running is admitted. -/
theorem C1_lock_serializes :
    (∀ (t₁ t₂ : List LockEvent) (j i : Nat) (sMid sFin : LockState),
      lockRun initLockState t₁ = some sMid →
      lockRun sMid (LockEvent.start j :: t₂) = some sFin →
      i < j → keyAt sMid i = keyAt sMid j →
      LockEvent.complete i ∈ t₁) ∧
      (lockRun initLockState
        [LockEvent.invoke "a", LockEvent.invoke "b", LockEvent.start 0,
          LockEvent.start 1, LockEvent.complete 1, LockEvent.chain 1,
          LockEvent.complete 0]).isSome = true := by
  constructor
  · intro t₁ t₂ j i sMid sFin h1 h2 hij hkeq
    have hInv : LockInv sMid := lockRun_inv t₁ initLockState sMid
      lockInv_init h1
    simp only [lockRun] at h2
    cases hstep : lockStep sMid (.start j) with
    | none => rw [hstep] at h2; cases h2
    | some s₂ =>
        have hch : phaseAt sMid i = some .chained :=
          start_step_chained sMid j s₂ hInv hstep i hij hkeq
        rcases phase_ge2_complete_mem t₁ initLockState sMid i .chained h1
            hch (by decide) with ⟨ph₀, hph₀, _⟩ | hmem
        · cases hph₀
        · exact hmem
  · decide

/-- The schedule prefix for the C1 witness: two calls on key `"a"`; the
first runs to `chained`. -/
def c1t1 : List LockEvent :=
  [.invoke "a", .invoke "a", .start 0, .complete 0, .chain 0]

/-- The state after `c1t1`. -/
def c1mid : LockState :=
  ⟨[⟨"a", .chained, none⟩, ⟨"a", .waiting, some 0⟩], [("a", 1)]⟩

/-- The state after the second call starts. -/
def c1fin : LockState :=
  ⟨[⟨"a", .chained, none⟩, ⟨"a", .started, some 0⟩], [("a", 1)]⟩

/-- C1 witness: in the concrete schedule where the second same-key call
starts, the first call's completion is in the prefix. -/
theorem C1_witness : LockEvent.complete 0 ∈ c1t1 :=
  C1_lock_serializes.1 c1t1 [] 1 0 c1mid c1fin (by decide) (by decide)
    (by decide) (by decide)

end Relay
